import Mathlib

/-!
# mqtt4openwrt: the sampling pipeline of `src/mqtt-client/main.go`

A shallow embedding of the telemetry agent's samplers (`calculateCPUUsage`,
`getMemoryUsage`, `getInterfaceBytes`, `getSpeeds`) and of one iteration of the
loop in `main`, followed by the properties of the specification checked against it.

Conventions of the embedding

* Go strings are lists of characters (`Str`); a file read is `Option Str`,
  `none` standing for an `ioutil.ReadFile` error.
* `int64` and `int` (taken as 64 bits wide) are `Int`, wrapped explicitly with
  `wrap64` where Go arithmetic can overflow.
* `float64` is `F64`: IEEE-754 binary64 with round-to-nearest, ties-to-even,
  finite values carried as exact rationals.
* The two package-level variables `cpuPrevTotal`, `cpuPrevIdle` are the explicit
  state `CpuState`; a run-time panic is an outcome of its own.
-/

namespace Mqtt

/-- Go strings, as lists of characters. -/
abbrev Str := List Char

deriving instance DecidableEq for Except

/-! ## Machine integers -/

/-- Two's-complement wrap-around of a mathematical integer into `int64`. -/
def wrap64 (z : Int) : Int := (z + 2 ^ 63) % 2 ^ 64 - 2 ^ 63

/-- The range of `int64`. -/
def InI64 (z : Int) : Prop := -(2 : Int) ^ 63 ≤ z ∧ z < 2 ^ 63

/-! ## IEEE-754 binary64 -/

/-- Values of Go's `float64`: a finite value (`fin 0` is `+0`), negative zero,
the two infinities, and NaN. -/
inductive F64 where
  | fin (q : ℚ)
  | negZero
  | inf (neg : Bool)
  | nan
deriving DecidableEq

/-- Number of binary digits of `n`, by halving; `fuel` bounds the recursion. -/
def bitlenAux : Nat → Nat → Nat
  | 0, _ => 0
  | fuel + 1, n => if n = 0 then 0 else bitlenAux fuel (n / 2) + 1

/-- Number of binary digits of `n` (`0` for `0`). -/
def bitlen (n : Nat) : Nat := bitlenAux n n

/-- The integer nearest to `n / d`, ties going to the even neighbour. -/
def rne (n d : Nat) : Nat :=
  if 2 * (n % d) < d then n / d
  else if d < 2 * (n % d) then n / d + 1
  else if (n / d) % 2 = 0 then n / d else n / d + 1

/-- The binary exponent of the positive rational `n / d`: the `e` with
`2 ^ e ≤ n / d < 2 ^ (e + 1)`. -/
def ilog2 (n d : Nat) : Int :=
  let k : Int := (bitlen n : Int) - (bitlen d : Int)
  if n * 2 ^ (-k).toNat < d * 2 ^ k.toNat then k - 1 else k

/-- The exponent of the unit in the last place used for rounding `n / d`:
53 significant bits, but never below the subnormal spacing `2 ^ (-1074)`. -/
def quantum (n d : Nat) : Int := max (ilog2 n d - 52) (-1074)

/-- The magnitude `n / d` rounded to the binary64 grid (no overflow check). -/
def roundMag (n d : Nat) : ℚ :=
  let p := quantum n d
  (rne (n * 2 ^ (-p).toNat) (d * 2 ^ p.toNat) : ℚ) * (2 : ℚ) ^ p

namespace F64

/-- A zero of the given sign. -/
def zero (neg : Bool) : F64 := if neg then negZero else fin 0

/-- The sign bit (`true` for negative). -/
def sign : F64 → Bool
  | fin q => decide (q < 0)
  | negZero => true
  | inf s => s
  | nan => false

/-- Correct rounding of a real (rational) result to binary64: nearest, ties to
even, overflow to an infinity, underflow to a zero carrying the sign. -/
def round (q : ℚ) : F64 :=
  if q = 0 then fin 0
  else
    let v := roundMag q.num.natAbs q.den
    if (2 : ℚ) ^ (1024 : ℕ) ≤ v then inf (decide (q < 0))
    else if v = 0 then zero (decide (q < 0))
    else fin (if q < 0 then -v else v)

/-- Conversion `float64(z)` of an integer. -/
def ofInt (z : Int) : F64 := round (z : ℚ)

/-- Negation. -/
def neg : F64 → F64
  | fin q => if q = 0 then negZero else fin (-q)
  | negZero => fin 0
  | inf s => inf (!s)
  | nan => nan

/-- Addition `x + y`. -/
def add : F64 → F64 → F64
  | nan, _ => nan
  | _, nan => nan
  | inf s, inf t => if s = t then inf s else nan
  | inf s, _ => inf s
  | _, inf t => inf t
  | negZero, negZero => negZero
  | negZero, fin b => fin b
  | fin a, negZero => fin a
  | fin a, fin b => round (a + b)

/-- Subtraction `x - y`. -/
def sub (x y : F64) : F64 := add x (neg y)

/-- The rational value of a finite float (`0` for the others). -/
def toRat : F64 → ℚ
  | fin q => q
  | _ => 0

/-- Finite values, zeros included. -/
def isFinite : F64 → Bool
  | fin _ => true
  | negZero => true
  | _ => false

/-- Multiplication `x * y`. -/
def mul (x y : F64) : F64 :=
  match x, y with
  | nan, _ => nan
  | _, nan => nan
  | inf s, inf t => inf (s != t)
  | inf s, y => if y.toRat = 0 then nan else inf (s != y.sign)
  | x, inf t => if x.toRat = 0 then nan else inf (x.sign != t)
  | x, y =>
    if x.toRat * y.toRat = 0 then zero (x.sign != y.sign)
    else round (x.toRat * y.toRat)

/-- Division `x / y`. -/
def div (x y : F64) : F64 :=
  match x, y with
  | nan, _ => nan
  | _, nan => nan
  | inf _, inf _ => nan
  | inf s, y => inf (s != y.sign)
  | x, inf t => zero (x.sign != t)
  | x, y =>
    if y.toRat = 0 then
      if x.toRat = 0 then nan else inf (x.sign != y.sign)
    else if x.toRat = 0 then zero (x.sign != y.sign)
    else round (x.toRat / y.toRat)

/-- Conversion `int(x)` to a 64-bit integer: truncation toward zero when the
truncated value is representable. Otherwise the Go specification leaves the
result implementation-dependent; `ub` supplies it. -/
def toInt (ub : F64 → Int) : F64 → Int
  | fin q =>
    if -(2 : Int) ^ 63 ≤ Int.tdiv q.num q.den ∧ Int.tdiv q.num q.den < 2 ^ 63
    then Int.tdiv q.num q.den else ub (fin q)
  | negZero => 0
  | x => ub x

/-- Representable magnitudes: `m * 2 ^ e` with a 53-bit `m` and `e` not below
the subnormal exponent. -/
def Repr (q : ℚ) : Prop := ∃ (m : ℕ) (e : ℤ), m < 2 ^ 53 ∧ -1074 ≤ e ∧ |q| = m * (2 : ℚ) ^ e

end F64

/-- The result of an out-of-range `int(x)` on amd64: always the minimum `int64`. -/
def amd64 : F64 → Int := fun _ => -(2 : Int) ^ 63

/-! ## Strings: `strings.Split`, `strings.Fields`, `strconv.ParseInt` -/

/-- White space in the sense of `unicode.IsSpace`, which `strings.Fields` splits on. -/
def isSpace (c : Char) : Bool :=
  c = ' ' || (9 ≤ c.toNat && c.toNat ≤ 13) || c.toNat = 0x85 || c.toNat = 0xA0 ||
  c.toNat = 0x1680 || (0x2000 ≤ c.toNat && c.toNat ≤ 0x200A) || c.toNat = 0x2028 ||
  c.toNat = 0x2029 || c.toNat = 0x202F || c.toNat = 0x205F || c.toNat = 0x3000

/-- Worker of `splitLines`: `cur` is the current piece, reversed. -/
def splitLinesAux (cur : Str) : Str → List Str
  | [] => [cur.reverse]
  | c :: cs => if c = '\n' then cur.reverse :: splitLinesAux [] cs else splitLinesAux (c :: cur) cs

/-- The pieces of `strings.Split(s, "\n")`. -/
def splitLines (s : Str) : List Str := splitLinesAux [] s

/-- Worker of `fields`: `cur` is the current field, reversed. -/
def fieldsAux (cur : Str) : Str → List Str
  | [] => if cur = [] then [] else [cur.reverse]
  | c :: cs =>
    if isSpace c then
      if cur = [] then fieldsAux [] cs else cur.reverse :: fieldsAux [] cs
    else fieldsAux (c :: cur) cs

/-- The white-space separated fields `strings.Fields(s)`. -/
def fields (s : Str) : List Str := fieldsAux [] s

/-- The two failures of `strconv`: a malformed numeral, a value out of range. -/
inductive NumError where
  | invalid
  | outOfRange
deriving DecidableEq

/-- Errors returned by the samplers. -/
inductive GoError where
  | readFile
  | num (e : NumError)
  | noCpuLine
  | totalZero
deriving DecidableEq

/-- The digit loop of `strconv.ParseUint(s, 10, 64)`. -/
def parseDigits : Nat → Str → Except NumError Nat
  | acc, [] => .ok acc
  | acc, c :: cs =>
    if '0' ≤ c ∧ c ≤ '9' then
      if 2 ^ 64 ≤ acc * 10 + (c.toNat - 48) then .error .outOfRange
      else parseDigits (acc * 10 + (c.toNat - 48)) cs
    else .error .invalid

/-- The parser `strconv.ParseUint(s, 10, 64)`. -/
def parseUint (s : Str) : Except NumError Nat :=
  if s = [] then .error .invalid else parseDigits 0 s

/-- The parser `strconv.ParseInt(s, 10, 64)`: an optional sign, decimal digits,
a value within `int64`. `strconv.Atoi` on a 64-bit `int` accepts the same
strings with the same values. -/
def parseInt (s : Str) : Except NumError Int :=
  match s with
  | [] => .error .invalid
  | '+' :: r =>
    match parseUint r with
    | .error e => .error e
    | .ok un => if 2 ^ 63 ≤ un then .error .outOfRange else .ok (un : Int)
  | '-' :: r =>
    match parseUint r with
    | .error e => .error e
    | .ok un => if 2 ^ 63 < un then .error .outOfRange else .ok (-(un : Int))
  | _ =>
    match parseUint s with
    | .error e => .error e
    | .ok un => if 2 ^ 63 ≤ un then .error .outOfRange else .ok (un : Int)

/-! ## `calculateCPUUsage` -/

/-- The package-level variables `cpuPrevTotal` and `cpuPrevIdle`. -/
structure CpuState where
  cpuPrevTotal : Int
  cpuPrevIdle : Int
deriving DecidableEq

/-- The state at process start: both variables hold Go's zero value. -/
def CpuState.init : CpuState := ⟨0, 0⟩

/-- What a call of `calculateCPUUsage` does: it returns `(val, err)` leaving the
state `st`, or it panics (index out of range). -/
inductive CpuOutcome where
  | ret (val : Int) (err : Option GoError) (st : CpuState)
  | panicked
deriving DecidableEq

/-- The loop `for i := 1; i < len(fields); i++` summing the parsed fields into
`total` (an `int64`); the argument is `fields[1:]`. -/
def sumFields : Int → List Str → Except NumError Int
  | total, [] => .ok total
  | total, f :: fs =>
    match parseInt f with
    | .error e => .error e
    | .ok value => sumFields (wrap64 (total + value)) fs

/-- The usage expression
`100.0 * (float64(total-cpuPrevTotal) - float64(idle-cpuPrevIdle)) / float64(total-cpuPrevTotal)`. -/
def cpuUsageExpr (st : CpuState) (total idle : Int) : F64 :=
  F64.div
    (F64.mul (F64.ofInt 100)
      (F64.sub (F64.ofInt (wrap64 (total - st.cpuPrevTotal)))
        (F64.ofInt (wrap64 (idle - st.cpuPrevIdle)))))
    (F64.ofInt (wrap64 (total - st.cpuPrevTotal)))

/-- The body run on the first line whose first field is `cpu`; `fs` is the
whole field list, label included. -/
def processCpuLine (ub : F64 → Int) (st : CpuState) (fs : List Str) : CpuOutcome :=
  match sumFields 0 fs.tail with
  | .error e => .ret 0 (some (.num e)) st
  | .ok total =>
    match fs.get? 4 with
    | none => .panicked
    | some f =>
      match parseInt f with
      | .error e => .ret 0 (some (.num e)) st
      | .ok idle => .ret (F64.toInt ub (cpuUsageExpr st total idle)) none ⟨total, idle⟩

/-- The loop `for _, line := range lines` of `calculateCPUUsage`. -/
def cpuLoop (ub : F64 → Int) (st : CpuState) : List Str → CpuOutcome
  | [] => .ret 0 (some .noCpuLine) st
  | line :: rest =>
    if (fields line).head? = some "cpu".toList then processCpuLine ub st (fields line)
    else cpuLoop ub st rest

/-- The function `calculateCPUUsage`, on the result of reading `/proc/stat`. -/
def calculateCPUUsage (ub : F64 → Int) (st : CpuState) (stat : Option Str) : CpuOutcome :=
  match stat with
  | none => .ret 0 (some .readFile) st
  | some contents => cpuLoop ub st (splitLines contents)

/-! ## `getMemoryUsage` -/

/-- One iteration of the loop of `getMemoryUsage` on the local variables
`(available, total)`. -/
def memStep (line : Str) (at_ : Int × Int) : Except GoError (Int × Int) :=
  let fs := fields line
  let r1 : Except GoError (Int × Int) :=
    if 1 < fs.length ∧ fs.head? = some "MemTotal:".toList then
      match parseInt (fs.getD 1 []) with
      | .error e => .error (.num e)
      | .ok t => .ok (at_.1, t)
    else .ok at_
  match r1 with
  | .error e => .error e
  | .ok at1 =>
    if 1 < fs.length ∧ fs.head? = some "MemAvailable:".toList then
      match parseInt (fs.getD 1 []) with
      | .error e => .error (.num e)
      | .ok a => .ok (a, at1.2)
    else .ok at1

/-- The loop of `getMemoryUsage` over the lines. -/
def memLoop : List Str → Int × Int → Except GoError (Int × Int)
  | [], at_ => .ok at_
  | line :: rest, at_ =>
    match memStep line at_ with
    | .error e => .error e
    | .ok at1 => memLoop rest at1

/-- The usage expression `100.0 * (1.0 - float64(available)/float64(total))`. -/
def memUsageExpr (available total : Int) : F64 :=
  F64.mul (F64.ofInt 100) (F64.sub (F64.ofInt 1) (F64.div (F64.ofInt available) (F64.ofInt total)))

/-- The function `getMemoryUsage`, on the result of reading `/proc/meminfo`;
it returns the pair `(value, err)`. -/
def getMemoryUsage (ub : F64 → Int) (meminfo : Option Str) : Int × Option GoError :=
  match meminfo with
  | none => (0, some .readFile)
  | some data =>
    match memLoop (splitLines data) (0, 0) with
    | .error e => (0, some e)
    | .ok (available, total) =>
      if total = 0 then (0, some .totalZero)
      else (F64.toInt ub (memUsageExpr available total), none)

/-! ## `getInterfaceBytes` and `getSpeeds` -/

/-- The call `strings.TrimSuffix(s, "\n")`: one trailing newline is removed. -/
def trimNewline (s : Str) : Str := if s.getLast? = some '\n' then s.dropLast else s

/-- The function `getInterfaceBytes`, on the result of reading the counter file. -/
def getInterfaceBytes (file : Option Str) : Except GoError Int :=
  match file with
  | none => .error .readFile
  | some data =>
    match parseInt (trimNewline data) with
    | .error e => .error (.num e)
    | .ok bytes => .ok bytes

/-- The method `time.Duration.Seconds` of the standard library, on a duration in
nanoseconds: `float64(d / Second) + float64(d % Second) / 1e9`. -/
def seconds (d : Int) : F64 :=
  F64.add (F64.ofInt (Int.tdiv d 1000000000))
    (F64.div (F64.ofInt (Int.tmod d 1000000000)) (F64.ofInt 1000000000))

/-- The conversion `bps / 1024 / 1024 * 8` from bytes per second to megabits per second. -/
def toMbps (bps : F64) : F64 :=
  F64.mul (F64.div (F64.div bps (F64.ofInt 1024)) (F64.ofInt 1024)) (F64.ofInt 8)

/-- The function `getSpeeds`. The four arguments `rx0 tx0 rx1 tx1` are the
results of reading the counter files before and after the one-second sleep, and
`elapsed` is the duration `time.Since(startTime)` in nanoseconds. It returns
`(downloadMbps, uploadMbps, err)`. -/
def getSpeeds (rx0 tx0 rx1 tx1 : Option Str) (elapsed : Int) : F64 × F64 × Option GoError :=
  match getInterfaceBytes rx0 with
  | .error _ => (F64.fin 0, F64.fin 0, none)
  | .ok startRxBytes =>
    match getInterfaceBytes tx0 with
    | .error _ => (F64.fin 0, F64.fin 0, none)
    | .ok startTxBytes =>
      match getInterfaceBytes rx1 with
      | .error _ => (F64.fin 0, F64.fin 0, none)
      | .ok endRxBytes =>
        match getInterfaceBytes tx1 with
        | .error _ => (F64.fin 0, F64.fin 0, none)
        | .ok endTxBytes =>
          (toMbps (F64.div (F64.ofInt (wrap64 (endRxBytes - startRxBytes))) (seconds elapsed)),
           toMbps (F64.div (F64.ofInt (wrap64 (endTxBytes - startTxBytes))) (seconds elapsed)),
           none)

/-! ## Formatting: `fmt.Sprintf("%d", _)` and `fmt.Sprintf("%.2f", _)` -/

/-- The character of a decimal digit. -/
def digitChar (d : Nat) : Char := Char.ofNat (48 + d)

/-- Worker of `natDigits`; `fuel` bounds the recursion. -/
def natDigitsAux : Nat → Nat → Str → Str
  | 0, _, acc => acc
  | fuel + 1, n, acc =>
    if n < 10 then digitChar n :: acc
    else natDigitsAux fuel (n / 10) (digitChar (n % 10) :: acc)

/-- The decimal numeral of a natural number. -/
def natDigits (n : Nat) : Str := natDigitsAux (n + 1) n []

/-- The result of `fmt.Sprintf("%d", z)`. -/
def fmtD (z : Int) : Str := if z < 0 then '-' :: natDigits z.natAbs else natDigits z.natAbs

/-- The result of `fmt.Sprintf("%.2f", x)`: the exact value rounded to two
decimals (ties to even), a minus sign when the sign bit is set. -/
def fmtF2 : F64 → Str
  | .nan => ['N', 'a', 'N']
  | .inf false => ['+', 'I', 'n', 'f']
  | .inf true => ['-', 'I', 'n', 'f']
  | .negZero => ['-', '0', '.', '0', '0']
  | .fin q =>
    (if q < 0 then ['-'] else []) ++
      (natDigits (rne (q.num.natAbs * 100) q.den / 100) ++
        ['.', digitChar (rne (q.num.natAbs * 100) q.den / 10 % 10),
          digitChar (rne (q.num.natAbs * 100) q.den % 10)])

/-! ## The payload -/

/-- The record `SystemUsage`. -/
structure SystemUsage where
  CPUUsage : Str
  MemoryUsage : Str
  Download : Str
  Upload : Str
  WifiClients : Str
deriving DecidableEq

/-- The double quote. -/
def dquote : Char := Char.ofNat 34

/-- The backslash. -/
def bslash : Char := Char.ofNat 92

/-- A lower-case hexadecimal digit. -/
def hexChar (n : Nat) : Char := if n < 10 then Char.ofNat (48 + n) else Char.ofNat (87 + n)

/-- How `encoding/json` writes one character of a string (HTML escaping on, as
in `json.Marshal`). -/
def escapeChar (c : Char) : Str :=
  if c = dquote then [bslash, dquote]
  else if c = bslash then [bslash, bslash]
  else if c.toNat = 8 then [bslash, 'b']
  else if c.toNat = 12 then [bslash, 'f']
  else if c = '\n' then [bslash, 'n']
  else if c = '\r' then [bslash, 'r']
  else if c = '\t' then [bslash, 't']
  else if c.toNat < 32 ∨ c = '<' ∨ c = '>' ∨ c = '&' then
    [bslash, 'u', '0', '0', hexChar (c.toNat / 16), hexChar (c.toNat % 16)]
  else if c.toNat = 0x2028 ∨ c.toNat = 0x2029 then
    [bslash, 'u', '2', '0', '2', hexChar (c.toNat % 16)]
  else [c]

/-- A JSON string literal. -/
def encodeString (s : Str) : Str := dquote :: (s.flatMap escapeChar ++ [dquote])

/-- One member `"key":"value"` of the object. -/
def member (key value : Str) : Str := encodeString key ++ ':' :: encodeString value

/-- The bytes `json.Marshal(body)` for a `SystemUsage`: the fields in declaration
order. Marshalling a struct of strings cannot fail. -/
def marshal (b : SystemUsage) : Str :=
  Char.ofNat 123 :: (member "CPUUsage".toList b.CPUUsage ++ ',' ::
    (member "MemoryUsage".toList b.MemoryUsage ++ ',' ::
      (member "Download".toList b.Download ++ ',' ::
        (member "Upload".toList b.Upload ++ ',' ::
          (member "WifiClients".toList b.WifiClients ++ [Char.ofNat 125])))))

/-- The value of a hexadecimal digit. -/
def hexVal (c : Char) : Option Nat :=
  if '0' ≤ c ∧ c ≤ '9' then some (c.toNat - 48)
  else if 'a' ≤ c ∧ c ≤ 'f' then some (c.toNat - 87)
  else if 'A' ≤ c ∧ c ≤ 'F' then some (c.toNat - 55)
  else none

/-- Reads the rest of a JSON string literal after its opening quote; `acc` is
what has been read, reversed. Returns the string and the remaining input. -/
def readStringBody (acc : Str) : Str → Option (Str × Str)
  | [] => none
  | c :: cs =>
    if c = dquote then some (acc.reverse, cs)
    else if c = bslash then
      match cs with
      | [] => none
      | e :: es =>
        if e = dquote then readStringBody (dquote :: acc) es
        else if e = bslash then readStringBody (bslash :: acc) es
        else if e = '/' then readStringBody ('/' :: acc) es
        else if e = 'b' then readStringBody (Char.ofNat 8 :: acc) es
        else if e = 'f' then readStringBody (Char.ofNat 12 :: acc) es
        else if e = 'n' then readStringBody ('\n' :: acc) es
        else if e = 'r' then readStringBody ('\r' :: acc) es
        else if e = 't' then readStringBody ('\t' :: acc) es
        else if e = 'u' then
          match es with
          | h1 :: h2 :: h3 :: h4 :: rest =>
            match hexVal h1, hexVal h2, hexVal h3, hexVal h4 with
            | some a, some b, some c4, some d =>
              readStringBody (Char.ofNat (((a * 16 + b) * 16 + c4) * 16 + d) :: acc) rest
            | _, _, _, _ => none
          | _ => none
        else none
    else if c.toNat < 32 then none
    else readStringBody (c :: acc) cs

/-- Reads a JSON string literal. -/
def readString : Str → Option (Str × Str)
  | [] => none
  | c :: cs => if c = dquote then readStringBody [] cs else none

/-- Skips JSON white space. -/
def skipWs : Str → Str
  | [] => []
  | c :: cs => if c = ' ' ∨ c = '\t' ∨ c = '\n' ∨ c = '\r' then skipWs cs else c :: cs

/-- ASCII lower-casing, for the case-insensitive match of member names. -/
def lowerAscii (s : Str) : Str := s.map fun c => if 'A' ≤ c ∧ c ≤ 'Z' then Char.ofNat (c.toNat + 32) else c

/-- Stores a decoded member in the field it names; other names are ignored. -/
def setField (b : SystemUsage) (key value : Str) : SystemUsage :=
  if lowerAscii key = "cpuusage".toList then SystemUsage.mk value b.MemoryUsage b.Download b.Upload b.WifiClients
  else if lowerAscii key = "memoryusage".toList then SystemUsage.mk b.CPUUsage value b.Download b.Upload b.WifiClients
  else if lowerAscii key = "download".toList then SystemUsage.mk b.CPUUsage b.MemoryUsage value b.Upload b.WifiClients
  else if lowerAscii key = "upload".toList then SystemUsage.mk b.CPUUsage b.MemoryUsage b.Download value b.WifiClients
  else if lowerAscii key = "wificlients".toList then SystemUsage.mk b.CPUUsage b.MemoryUsage b.Download b.Upload value
  else b

/-- Reads the members of an object after its opening brace, one per unit of
`fuel`, up to and including the closing brace; nothing but white space may follow. -/
def readMembers : Nat → SystemUsage → Str → Option SystemUsage
  | 0, _, _ => none
  | fuel + 1, b, s =>
    match readString (skipWs s) with
    | none => none
    | some (key, r1) =>
      match skipWs r1 with
      | ':' :: r2 =>
        match readString (skipWs r2) with
        | none => none
        | some (value, r3) =>
          match skipWs r3 with
          | c :: r4 =>
            if c = ',' then readMembers fuel (setField b key value) r4
            else if c = Char.ofNat 125 ∧ skipWs r4 = [] then some (setField b key value)
            else none
          | [] => none
      | _ => none

/-- A reader of the payload, as `json.Unmarshal(payload, &SystemUsage{})` acts
on a JSON object whose members are strings: members are matched to the fields by
name, ignoring case, and fields without a member keep the empty string. Input
outside that fragment is rejected. -/
def unmarshal (payload : Str) : Option SystemUsage :=
  match skipWs payload with
  | c :: r =>
    if c = Char.ofNat 123 then
      match skipWs r with
      | c2 :: r2 =>
        if c2 = Char.ofNat 125 ∧ skipWs r2 = [] then some (SystemUsage.mk [] [] [] [] [])
        else readMembers payload.length (SystemUsage.mk [] [] [] [] []) r
      | [] => none
    else none
  | [] => none

/-! ## One iteration of the loop in `main` -/

/-- The body assembled in `main`; the wifi client count is the constant `0`. -/
def assemble (downloadMbps uploadMbps : F64) (cpuUsage memoryUsage : Int) : SystemUsage :=
  SystemUsage.mk (fmtD cpuUsage) (fmtD memoryUsage) (fmtF2 downloadMbps) (fmtF2 uploadMbps) (fmtD 0)

/-- Everything one iteration reads from its environment. -/
structure CycleInput where
  rx0 : Option Str
  tx0 : Option Str
  rx1 : Option Str
  tx1 : Option Str
  elapsed : Int
  stat : Option Str
  meminfo : Option Str

/-- What one iteration does: it hands a payload to `publish` and leaves the CPU
state `st`, or the process dies in a panic. -/
inductive CycleOutcome where
  | published (payload : Str) (st : CpuState)
  | panicked
deriving DecidableEq

/-- One iteration of the `for` loop of `main`: the three samplers in order, their
errors only logged, then assembly, `json.Marshal` and `publish`. -/
def cycle (ub : F64 → Int) (st : CpuState) (inp : CycleInput) : CycleOutcome :=
  match getSpeeds inp.rx0 inp.tx0 inp.rx1 inp.tx1 inp.elapsed with
  | (downloadMbps, uploadMbps, _) =>
    match calculateCPUUsage ub st inp.stat with
    | .panicked => .panicked
    | .ret cpuUsage _ st1 =>
      match getMemoryUsage ub inp.meminfo with
      | (memoryUsage, _) =>
        .published (marshal (assemble downloadMbps uploadMbps cpuUsage memoryUsage)) st1

/-! ## Predicates used in the statements -/

/-- A line is the aggregate line when its first field is the label `cpu`. -/
def IsCpuLine (line : Str) : Prop := (fields line).head? = some "cpu".toList

instance (line : Str) : Decidable (IsCpuLine line) := by
  unfold IsCpuLine
  infer_instance

/-- Truncation toward zero of a rational number. -/
def truncQ (x : ℚ) : ℤ := if 0 ≤ x then ⌊x⌋ else -⌊-x⌋

/-- A line of `/proc/meminfo` that the loop of `getMemoryUsage` takes for the
entry `key`: more than one field, the first being `key`. -/
def IsMemLine (key : Str) (line : Str) : Prop :=
  1 < (fields line).length ∧ (fields line).head? = some key

instance (key line : Str) : Decidable (IsMemLine key line) := by
  unfold IsMemLine
  infer_instance

/-- Decimal digit characters. -/
def IsDigit (c : Char) : Prop := 48 ≤ c.toNat ∧ c.toNat ≤ 57

instance (c : Char) : Decidable (IsDigit c) := by
  unfold IsDigit
  infer_instance

/-- A decimal integer numeral: digits, possibly after a minus sign. -/
def IntNumeral (s : Str) : Prop :=
  ∃ ds : Str, ds ≠ [] ∧ (∀ c ∈ ds, IsDigit c) ∧ (s = ds ∨ s = '-' :: ds)

/-- An unsigned decimal numeral with exactly two digits after the point. -/
def TwoDecimals (s : Str) : Prop :=
  ∃ (ip : Str) (a b : Char), ip ≠ [] ∧ (∀ c ∈ ip, IsDigit c) ∧ IsDigit a ∧ IsDigit b ∧
    s = ip ++ ['.', a, b]

/-- Characters that `encoding/json` writes as they are and that a reader of a
string literal takes as they are. -/
def Plain (c : Char) : Prop := escapeChar c = [c] ∧ c ≠ dquote ∧ c ≠ bslash ∧ ¬ c.toNat < 32

instance (c : Char) : Decidable (Plain c) := by
  unfold Plain
  infer_instance

/-! # Properties -/

/-! ## The loop of `calculateCPUUsage` -/

theorem cpuLoop_skip (ub : F64 → Int) (st : CpuState) (pre : List Str) (line : Str) (post : List Str)
    (hpre : ∀ x ∈ pre, ¬ IsCpuLine x) (hline : IsCpuLine line) :
    cpuLoop ub st (pre ++ line :: post) = processCpuLine ub st (fields line) := by
  induction pre with
  | nil =>
    simp only [List.nil_append, cpuLoop]
    exact if_pos hline
  | cons x xs ih =>
    have hx : ¬ IsCpuLine x := hpre x (List.mem_cons_self _ _)
    have hxs : ∀ y ∈ xs, ¬ IsCpuLine y := fun y hy => hpre y (List.mem_cons_of_mem _ hy)
    simp only [List.cons_append, cpuLoop]
    rw [if_neg (show ¬ ((fields x).head? = some "cpu".toList) from hx)]
    exact ih hxs

theorem processCpuLine_error_state (ub : F64 → Int) (st : CpuState) (fs : List Str) (v : Int)
    (e : GoError) (st1 : CpuState) (h : processCpuLine ub st fs = .ret v (some e) st1) :
    v = 0 ∧ st1 = st := by
  unfold processCpuLine at h
  split at h
  · injection h with h1 h2 h3
    exact ⟨h1.symm, h3.symm⟩
  · split at h
    · exact CpuOutcome.noConfusion h
    · split at h
      · injection h with h1 h2 h3
        exact ⟨h1.symm, h3.symm⟩
      · injection h with h1 h2 h3
        exact Option.noConfusion h2

theorem cpuLoop_error_state (ub : F64 → Int) (st : CpuState) (lines : List Str) (v : Int)
    (e : GoError) (st1 : CpuState) (h : cpuLoop ub st lines = .ret v (some e) st1) :
    v = 0 ∧ st1 = st := by
  induction lines with
  | nil =>
    simp only [cpuLoop] at h
    injection h with h1 h2 h3
    exact ⟨h1.symm, h3.symm⟩
  | cons line rest ih =>
    simp only [cpuLoop] at h
    split at h
    · exact processCpuLine_error_state ub st _ v e st1 h
    · exact ih h

theorem calculateCPUUsage_error_value (ub : F64 → Int) (st : CpuState) (stat : Option Str) (v : Int)
    (e : GoError) (st1 : CpuState) (h : calculateCPUUsage ub st stat = .ret v (some e) st1) :
    v = 0 ∧ st1 = st := by
  cases stat with
  | none =>
    simp only [calculateCPUUsage] at h
    injection h with h1 h2 h3
    exact ⟨h1.symm, h3.symm⟩
  | some contents => exact cpuLoop_error_state ub st _ v e st1 h

/-- C9: whenever `calculateCPUUsage` returns a non-nil error (unreadable source,
no `cpu` line, a field that is not an integer), the stored previous counters
`cpuPrevTotal` and `cpuPrevIdle` are the ones from before the call. -/
theorem calculateCPUUsage_state_unchanged_on_error (ub : F64 → Int) (st : CpuState)
    (stat : Option Str) (v : Int) (e : GoError) (st1 : CpuState)
    (h : calculateCPUUsage ub st stat = .ret v (some e) st1) :
    st1.cpuPrevTotal = st.cpuPrevTotal ∧ st1.cpuPrevIdle = st.cpuPrevIdle := by
  have h1 := (calculateCPUUsage_error_value ub st stat v e st1 h).2
  rw [h1]
  exact ⟨rfl, rfl⟩

theorem calculateCPUUsage_state_unchanged_on_error_witness :
    calculateCPUUsage amd64 ⟨1000, 800⟩ (some "cpu 10 20 30 4x 50\n".toList)
        = .ret 0 (some (.num .invalid)) ⟨1000, 800⟩ ∧
      ((⟨1000, 800⟩ : CpuState).cpuPrevTotal = (⟨1000, 800⟩ : CpuState).cpuPrevTotal ∧
        (⟨1000, 800⟩ : CpuState).cpuPrevIdle = (⟨1000, 800⟩ : CpuState).cpuPrevIdle) :=
  ⟨by decide!,
    calculateCPUUsage_state_unchanged_on_error amd64 ⟨1000, 800⟩
      (some "cpu 10 20 30 4x 50\n".toList) 0 (.num .invalid) ⟨1000, 800⟩ (by decide!)⟩

/-- C10: on the readable content `cpu 1 2 3` (three numeric fields after the
label) and on a bare `cpu`, `calculateCPUUsage` does not return an error: the
access `fields[4]` is out of range and the call panics. -/
theorem calculateCPUUsage_short_line_panics (ub : F64 → Int) (st : CpuState) :
    calculateCPUUsage ub st (some "cpu 1 2 3\n".toList) = .panicked ∧
      calculateCPUUsage ub st (some "cpu".toList) = .panicked := by
  constructor <;> rfl

/-! ## Rounding to binary64 -/

theorem bitlenAux_spec (fuel n : Nat) (hf : n ≤ fuel) (hn : 0 < n) :
    ∃ b, bitlenAux fuel n = b + 1 ∧ 2 ^ b ≤ n ∧ n < 2 ^ (b + 1) := by
  induction fuel generalizing n with
  | zero => omega
  | succ f ih =>
    have hn0 : n ≠ 0 := by omega
    simp only [bitlenAux, if_neg hn0]
    by_cases h2 : n / 2 = 0
    · refine ⟨0, ?_, ?_, ?_⟩
      · rw [h2]
        cases f <;> simp [bitlenAux]
      · simpa using hn
      · have : n < 2 := by omega
        simpa using this
    · have hpos : 0 < n / 2 := Nat.pos_of_ne_zero h2
      have hle : n / 2 ≤ f := by omega
      obtain ⟨b, hb, hlo, hhi⟩ := ih (n / 2) hle hpos
      refine ⟨b + 1, by rw [hb], ?_, ?_⟩
      · have : 2 ^ (b + 1) = 2 * 2 ^ b := by ring
        omega
      · have : 2 ^ (b + 1 + 1) = 2 * 2 ^ (b + 1) := by ring
        omega

theorem bitlen_spec (n : Nat) (hn : 0 < n) :
    ∃ b, bitlen n = b + 1 ∧ 2 ^ b ≤ n ∧ n < 2 ^ (b + 1) :=
  bitlenAux_spec n n (le_refl n) hn

theorem two_zpow_split (k : ℤ) : (2 : ℚ) ^ k = (2 : ℚ) ^ k.toNat / (2 : ℚ) ^ (-k).toNat := by
  rcases le_total 0 k with h | h
  · lift k to ℕ using h
    have : (-(k : ℤ)).toNat = 0 := by simp
    rw [this]
    simp
  · obtain ⟨m, rfl⟩ : ∃ m : ℕ, k = -(m : ℤ) := ⟨(-k).toNat, by omega⟩
    have h1 : (-(m : ℤ)).toNat = 0 := by simp
    have h2 : (- -(m : ℤ)).toNat = m := by simp
    rw [h1, h2]
    simp [zpow_neg]

theorem scaled_div (n d : Nat) (k : ℤ) :
    ((n * 2 ^ (-k).toNat : ℕ) : ℚ) / ((d * 2 ^ k.toNat : ℕ) : ℚ) = (n : ℚ) / d / (2 : ℚ) ^ k := by
  rw [two_zpow_split k]
  push_cast
  have h1 : ((2 : ℚ) ^ k.toNat) ≠ 0 := by positivity
  have h2 : ((2 : ℚ) ^ (-k).toNat) ≠ 0 := by positivity
  by_cases hd : (d : ℚ) = 0
  · simp [hd]
  · field_simp

theorem ilog2_spec (n d : Nat) (hn : 0 < n) (hd : 0 < d) :
    (2 : ℚ) ^ (ilog2 n d) ≤ (n : ℚ) / d ∧ (n : ℚ) / d < (2 : ℚ) ^ (ilog2 n d + 1) := by
  obtain ⟨i, hi, hilo, hihi⟩ := bitlen_spec n hn
  obtain ⟨j, hj, hjlo, hjhi⟩ := bitlen_spec d hd
  have hdq : (0 : ℚ) < d := by exact_mod_cast hd
  have hnq : (0 : ℚ) < n := by exact_mod_cast hn
  have e1 : (2 : ℚ) ^ i ≤ n := by exact_mod_cast hilo
  have e2 : (n : ℚ) < 2 ^ (i + 1) := by exact_mod_cast hihi
  have e3 : (2 : ℚ) ^ j ≤ d := by exact_mod_cast hjlo
  have e4 : (d : ℚ) < 2 ^ (j + 1) := by exact_mod_cast hjhi
  have hk : ((bitlen n : ℤ) - (bitlen d : ℤ)) = (i : ℤ) - j := by
    rw [hi, hj]
    push_cast
    ring
  have p2 : ∀ z : ℤ, (0 : ℚ) < 2 ^ z := fun z => by positivity
  -- 2^(k-1) < n/d < 2^(k+1)
  have lo : (2 : ℚ) ^ ((i : ℤ) - j - 1) < (n : ℚ) / d := by
    rw [lt_div_iff₀ hdq]
    have : (2 : ℚ) ^ ((i : ℤ) - j - 1) * 2 ^ ((j : ℤ) + 1) = 2 ^ (i : ℤ) := by
      rw [← zpow_add₀ (by norm_num : (2 : ℚ) ≠ 0)]
      congr 1
      ring
    calc (2 : ℚ) ^ ((i : ℤ) - j - 1) * d < 2 ^ ((i : ℤ) - j - 1) * 2 ^ ((j : ℤ) + 1) := by
          apply mul_lt_mul_of_pos_left _ (p2 _)
          exact_mod_cast e4
      _ = 2 ^ (i : ℤ) := this
      _ ≤ n := by exact_mod_cast e1
  have hi' : (n : ℚ) / d < (2 : ℚ) ^ ((i : ℤ) - j + 1) := by
    rw [div_lt_iff₀ hdq]
    have : (2 : ℚ) ^ ((i : ℤ) - j + 1) * 2 ^ (j : ℤ) = 2 ^ ((i : ℤ) + 1) := by
      rw [← zpow_add₀ (by norm_num : (2 : ℚ) ≠ 0)]
      congr 1
      ring
    calc (n : ℚ) < 2 ^ ((i : ℤ) + 1) := by exact_mod_cast e2
      _ = 2 ^ ((i : ℤ) - j + 1) * 2 ^ (j : ℤ) := this.symm
      _ ≤ 2 ^ ((i : ℤ) - j + 1) * d := by
          apply mul_le_mul_of_nonneg_left _ (p2 _).le
          exact_mod_cast e3
  unfold ilog2
  simp only [hk]
  have key : (n * 2 ^ (-((i : ℤ) - j)).toNat < d * 2 ^ ((i : ℤ) - j).toNat) ↔
      (n : ℚ) / d < (2 : ℚ) ^ ((i : ℤ) - j) := by
    rw [two_zpow_split ((i : ℤ) - j)]
    have h1 : (0 : ℚ) < (2 : ℚ) ^ ((i : ℤ) - j).toNat := by positivity
    have h2 : (0 : ℚ) < (2 : ℚ) ^ (-((i : ℤ) - j)).toNat := by positivity
    rw [div_lt_div_iff₀ hdq h2]
    constructor
    · intro h
      have : ((n * 2 ^ (-((i : ℤ) - j)).toNat : ℕ) : ℚ) < ((d * 2 ^ ((i : ℤ) - j).toNat : ℕ) : ℚ) := by
        exact_mod_cast h
      push_cast at this
      linarith
    · intro h
      have : ((n * 2 ^ (-((i : ℤ) - j)).toNat : ℕ) : ℚ) < ((d * 2 ^ ((i : ℤ) - j).toNat : ℕ) : ℚ) := by
        push_cast
        linarith
      exact_mod_cast this
  split
  · rename_i h
    have h' := key.mp h
    refine ⟨lo.le, ?_⟩
    have : (i : ℤ) - j - 1 + 1 = (i : ℤ) - j := by ring
    rw [this]
    exact h'
  · rename_i h
    have h' : ¬ ((n : ℚ) / d < (2 : ℚ) ^ ((i : ℤ) - j)) := fun hh => h (key.mpr hh)
    exact ⟨not_lt.mp h', hi'⟩

theorem rne_cases (n d : Nat) : rne n d = n / d ∨ rne n d = n / d + 1 := by
  unfold rne
  split
  · exact Or.inl rfl
  · split
    · exact Or.inr rfl
    · split
      · exact Or.inl rfl
      · exact Or.inr rfl

theorem rne_err (n d : Nat) (hd : 0 < d) : |((rne n d : ℕ) : ℚ) - (n : ℚ) / d| ≤ 1 / 2 := by
  have hdq : (0 : ℚ) < d := by exact_mod_cast hd
  have hmod : n % d < d := Nat.mod_lt n hd
  have hsplit : (n : ℚ) / d = ((n / d : ℕ) : ℚ) + ((n % d : ℕ) : ℚ) / d := by
    have h := Nat.div_add_mod n d
    have h' : (n : ℚ) = (d : ℚ) * ((n / d : ℕ) : ℚ) + ((n % d : ℕ) : ℚ) := by exact_mod_cast h.symm
    field_simp
    linarith
  have hr0 : (0 : ℚ) ≤ ((n % d : ℕ) : ℚ) / d := by positivity
  have hr1 : ((n % d : ℕ) : ℚ) / d < 1 := by
    rw [div_lt_one hdq]
    exact_mod_cast hmod
  unfold rne
  split
  · rename_i h
    have h' : 2 * ((n % d : ℕ) : ℚ) < d := by exact_mod_cast h
    have : ((n % d : ℕ) : ℚ) / d ≤ 1 / 2 := by
      rw [div_le_iff₀ hdq]
      linarith
    rw [hsplit, abs_le]
    constructor <;> linarith
  · rename_i h
    have hge : (d : ℚ) ≤ 2 * ((n % d : ℕ) : ℚ) := by exact_mod_cast not_lt.mp h
    have hhalf : 1 / 2 ≤ ((n % d : ℕ) : ℚ) / d := by
      rw [le_div_iff₀ hdq]
      linarith
    split
    · push_cast
      rw [hsplit, abs_le]
      constructor <;> linarith
    · rename_i h2
      have hle : 2 * ((n % d : ℕ) : ℚ) ≤ d := by exact_mod_cast not_lt.mp h2
      have heq : ((n % d : ℕ) : ℚ) / d = 1 / 2 := by
        apply le_antisymm _ hhalf
        rw [div_le_iff₀ hdq]
        linarith
      split
      · rw [hsplit, abs_le]
        constructor <;> linarith
      · push_cast
        rw [hsplit, abs_le]
        constructor <;> linarith

theorem rne_exact (n d K : Nat) (hd : 0 < d) (h : n = K * d) : rne n d = K := by
  subst h
  unfold rne
  have h1 : K * d % d = 0 := Nat.mul_mod_left K d
  have h2 : K * d / d = K := Nat.mul_div_cancel K hd
  rw [h1, h2]
  simp [hd]

theorem rne_le (n d K : Nat) (hd : 0 < d) (h : n ≤ K * d) : rne n d ≤ K := by
  have hdiv : n / d ≤ K := Nat.div_le_of_le_mul (by rw [Nat.mul_comm]; exact h)
  rcases Nat.lt_or_ge (n / d) K with hlt | hge
  · rcases rne_cases n d with hc | hc <;> omega
  · have hK : n / d = K := le_antisymm hdiv hge
    have hge' : K * d ≤ n := by
      rw [← hK]
      exact Nat.div_mul_le_self n d
    exact (rne_exact n d K hd (le_antisymm h hge')).le

theorem le_rne (n d K : Nat) (hd : 0 < d) (h : K * d ≤ n) : K ≤ rne n d := by
  have hdiv : K ≤ n / d := (Nat.le_div_iff_mul_le hd).mpr h
  rcases rne_cases n d with hc | hc <;> omega

theorem roundMag_normal (n d : Nat) (hn : 0 < n) (hd : 0 < d) (he : -1022 ≤ ilog2 n d) :
    ∃ M : ℕ, 2 ^ 52 ≤ M ∧ M ≤ 2 ^ 53 ∧ roundMag n d = (M : ℚ) * (2 : ℚ) ^ (ilog2 n d - 52) ∧
      |roundMag n d - (n : ℚ) / d| ≤ (2 : ℚ) ^ (ilog2 n d - 53) := by
  obtain ⟨hlo, hhi⟩ := ilog2_spec n d hn hd
  have hq : quantum n d = ilog2 n d - 52 := by
    unfold quantum
    exact max_eq_left (by omega)
  set e := ilog2 n d with he_def
  set p := e - 52 with hp
  have hd' : 0 < d * 2 ^ p.toNat := Nat.mul_pos hd (by positivity)
  have hd'q : (0 : ℚ) < ((d * 2 ^ p.toNat : ℕ) : ℚ) := by exact_mod_cast hd'
  have hy := scaled_div n d p
  have p2 : (0 : ℚ) < (2 : ℚ) ^ p := by positivity
  have e52 : (2 : ℚ) ^ e = 2 ^ (52 : ℕ) * 2 ^ p := by
    rw [hp, ← zpow_natCast, ← zpow_add₀ (by norm_num : (2 : ℚ) ≠ 0)]
    congr 1
    push_cast
    ring
  have e53 : (2 : ℚ) ^ (e + 1) = 2 ^ (53 : ℕ) * 2 ^ p := by
    rw [hp, ← zpow_natCast, ← zpow_add₀ (by norm_num : (2 : ℚ) ≠ 0)]
    congr 1
    push_cast
    ring
  have ylo : (2 : ℚ) ^ (52 : ℕ) ≤ ((n * 2 ^ (-p).toNat : ℕ) : ℚ) / ((d * 2 ^ p.toNat : ℕ) : ℚ) := by
    rw [hy, le_div_iff₀ p2, ← e52]
    exact hlo
  have yhi : ((n * 2 ^ (-p).toNat : ℕ) : ℚ) / ((d * 2 ^ p.toNat : ℕ) : ℚ) < (2 : ℚ) ^ (53 : ℕ) := by
    rw [hy, div_lt_iff₀ p2, ← e53]
    exact hhi
  have nlo : 2 ^ 52 * (d * 2 ^ p.toNat) ≤ n * 2 ^ (-p).toNat := by
    rw [le_div_iff₀ hd'q] at ylo
    exact_mod_cast ylo
  have nhi : n * 2 ^ (-p).toNat ≤ 2 ^ 53 * (d * 2 ^ p.toNat) := by
    rw [div_lt_iff₀ hd'q] at yhi
    exact le_of_lt (by exact_mod_cast yhi)
  have herr := rne_err (n * 2 ^ (-p).toNat) (d * 2 ^ p.toNat) hd'
  refine ⟨rne (n * 2 ^ (-p).toNat) (d * 2 ^ p.toNat), le_rne _ _ _ hd' nlo, rne_le _ _ _ hd' nhi, ?_, ?_⟩
  · unfold roundMag
    simp only [hq]
  · unfold roundMag
    simp only [hq]
    rw [hy] at herr
    have : ((rne (n * 2 ^ (-p).toNat) (d * 2 ^ p.toNat) : ℕ) : ℚ) * 2 ^ p - (n : ℚ) / d =
        (((rne (n * 2 ^ (-p).toNat) (d * 2 ^ p.toNat) : ℕ) : ℚ) - (n : ℚ) / d / 2 ^ p) * 2 ^ p := by
      have hdq : (d : ℚ) ≠ 0 := by exact_mod_cast hd.ne.symm
      field_simp
      ring
    rw [this, abs_mul, abs_of_pos p2]
    have h53 : (2 : ℚ) ^ (e - 53) = 1 / 2 * 2 ^ p := by
      rw [hp]
      have : e - 53 = (e - 52) + (-1) := by ring
      rw [this, zpow_add₀ (by norm_num : (2 : ℚ) ≠ 0)]
      norm_num
      ring
    rw [h53]
    exact mul_le_mul_of_nonneg_right herr p2.le

theorem ilog2_unique (n d : Nat) (hn : 0 < n) (hd : 0 < d) (e : ℤ)
    (hlo : (2 : ℚ) ^ e ≤ (n : ℚ) / d) (hhi : (n : ℚ) / d < (2 : ℚ) ^ (e + 1)) : ilog2 n d = e := by
  obtain ⟨h1, h2⟩ := ilog2_spec n d hn hd
  have a : (2 : ℚ) ^ e < (2 : ℚ) ^ (ilog2 n d + 1) := lt_of_le_of_lt hlo h2
  have b : (2 : ℚ) ^ (ilog2 n d) < (2 : ℚ) ^ (e + 1) := lt_of_le_of_lt h1 hhi
  have a' := (zpow_lt_zpow_iff_right₀ (by norm_num : (1 : ℚ) < 2)).mp a
  have b' := (zpow_lt_zpow_iff_right₀ (by norm_num : (1 : ℚ) < 2)).mp b
  omega

theorem ilog2_ge (n d : Nat) (hn : 0 < n) (hd : 0 < d) (L : ℤ)
    (h : (2 : ℚ) ^ L ≤ (n : ℚ) / d) : L ≤ ilog2 n d := by
  obtain ⟨h1, h2⟩ := ilog2_spec n d hn hd
  have a : (2 : ℚ) ^ L < (2 : ℚ) ^ (ilog2 n d + 1) := lt_of_le_of_lt h h2
  have a' := (zpow_lt_zpow_iff_right₀ (by norm_num : (1 : ℚ) < 2)).mp a
  omega

theorem ilog2_lt (n d : Nat) (hn : 0 < n) (hd : 0 < d) (H : ℤ)
    (h : (n : ℚ) / d < (2 : ℚ) ^ H) : ilog2 n d < H := by
  obtain ⟨h1, h2⟩ := ilog2_spec n d hn hd
  have a : (2 : ℚ) ^ (ilog2 n d) < (2 : ℚ) ^ H := lt_of_le_of_lt h1 h
  exact (zpow_lt_zpow_iff_right₀ (by norm_num : (1 : ℚ) < 2)).mp a

theorem natAbs_num_div_den (q : ℚ) : ((q.num.natAbs : ℕ) : ℚ) / (q.den : ℚ) = |q| := by
  have hden : (0 : ℚ) < q.den := by exact_mod_cast q.den_pos
  conv_rhs => rw [← Rat.num_div_den q]
  rw [abs_div, abs_of_pos hden, Nat.cast_natAbs]
  push_cast
  rfl

theorem signed_abs (q v : ℚ) (hv : 0 ≤ v) : abs (if q < 0 then -v else v) = v := by
  split
  · rw [abs_neg, abs_of_nonneg hv]
  · exact abs_of_nonneg hv

theorem signed_abs_sub (q v : ℚ) : abs ((if q < 0 then -v else v) - q) = abs (v - abs q) := by
  split
  · rename_i h
    rw [abs_of_neg h]
    have : -v - q = -(v - -q) := by ring
    rw [this, abs_neg]
  · rename_i h
    rw [abs_of_nonneg (not_lt.mp h)]

theorem round_normal (q : ℚ) (hlo : (2 : ℚ) ^ (-1022 : ℤ) ≤ |q|) (hhi : |q| < (2 : ℚ) ^ (1023 : ℤ)) :
    ∃ r, F64.round q = F64.fin r ∧ (0 < q → 0 < r) ∧ (q < 0 → r < 0) ∧
      |r - q| ≤ |q| * (2 : ℚ) ^ (-53 : ℤ) ∧
      ∃ (M : ℕ) (e : ℤ), 2 ^ 52 ≤ M ∧ M ≤ 2 ^ 53 ∧ |r| = (M : ℚ) * (2 : ℚ) ^ (e - 52) ∧
        (2 : ℚ) ^ e ≤ |q| ∧ |q| < (2 : ℚ) ^ (e + 1) := by
  have habs : 0 < |q| := lt_of_lt_of_le (by positivity) hlo
  have hq0 : q ≠ 0 := abs_pos.mp habs
  have hnum : q.num ≠ 0 := Rat.num_ne_zero.mpr hq0
  have hn : 0 < q.num.natAbs := Int.natAbs_pos.mpr hnum
  have hd : 0 < q.den := q.den_pos
  have ha := natAbs_num_div_den q
  obtain ⟨slo, shi⟩ := ilog2_spec q.num.natAbs q.den hn hd
  have he1 : -1022 ≤ ilog2 q.num.natAbs q.den := ilog2_ge _ _ hn hd _ (by rw [ha]; exact hlo)
  have he2 : ilog2 q.num.natAbs q.den < 1023 := ilog2_lt _ _ hn hd _ (by rw [ha]; exact hhi)
  obtain ⟨M, hM1, hM2, hv, herr⟩ := roundMag_normal q.num.natAbs q.den hn hd he1
  rw [ha] at slo shi herr
  set e := ilog2 q.num.natAbs q.den with he
  set v := roundMag q.num.natAbs q.den with hvdef
  have p2 : (0 : ℚ) < (2 : ℚ) ^ (e - 52) := by positivity
  have hM1q : (2 : ℚ) ^ (52 : ℕ) ≤ M := by exact_mod_cast hM1
  have hM2q : (M : ℚ) ≤ (2 : ℚ) ^ (53 : ℕ) := by exact_mod_cast hM2
  have e52 : (2 : ℚ) ^ e = 2 ^ (52 : ℕ) * 2 ^ (e - 52) := by
    rw [← zpow_natCast, ← zpow_add₀ (by norm_num : (2 : ℚ) ≠ 0)]
    congr 1
    push_cast
    ring
  have e53 : (2 : ℚ) ^ (e + 1) = 2 ^ (53 : ℕ) * 2 ^ (e - 52) := by
    rw [← zpow_natCast, ← zpow_add₀ (by norm_num : (2 : ℚ) ≠ 0)]
    congr 1
    push_cast
    ring
  have vlo : (2 : ℚ) ^ e ≤ v := by
    rw [hv, e52]
    exact mul_le_mul_of_nonneg_right hM1q p2.le
  have vhi : v ≤ (2 : ℚ) ^ (e + 1) := by
    rw [hv, e53]
    exact mul_le_mul_of_nonneg_right hM2q p2.le
  have vpos : 0 < v := lt_of_lt_of_le (by positivity) vlo
  have vlt : v < (2 : ℚ) ^ (1024 : ℕ) := by
    have h1 : (2 : ℚ) ^ (e + 1) ≤ (2 : ℚ) ^ (1023 : ℤ) :=
      zpow_le_zpow_right₀ (by norm_num) (by omega)
    have h2 : (2 : ℚ) ^ (1023 : ℤ) < (2 : ℚ) ^ (1024 : ℕ) := by
      rw [← zpow_natCast]
      exact zpow_lt_zpow_right₀ (by norm_num) (by norm_num)
    linarith
  refine ⟨if q < 0 then -v else v, ?_, ?_, ?_, ?_, M, e, hM1, hM2, ?_, slo, shi⟩
  · unfold F64.round
    rw [if_neg hq0]
    simp only [← hvdef]
    rw [if_neg (not_le.mpr vlt), if_neg vpos.ne']
  · intro h
    rw [if_neg (not_lt.mpr h.le)]
    exact vpos
  · intro h
    rw [if_pos h]
    linarith
  · rw [signed_abs_sub]
    have h53 : (2 : ℚ) ^ (e - 53) = 2 ^ e * 2 ^ (-53 : ℤ) := by
      rw [← zpow_add₀ (by norm_num : (2 : ℚ) ≠ 0)]
      congr 1
    calc abs (v - abs q) ≤ (2 : ℚ) ^ (e - 53) := herr
      _ = 2 ^ e * 2 ^ (-53 : ℤ) := h53
      _ ≤ |q| * 2 ^ (-53 : ℤ) := mul_le_mul_of_nonneg_right slo (by positivity)
  · rw [signed_abs _ _ vpos.le, hv]

theorem round_exact (q : ℚ) (m : ℕ) (p0 : ℤ) (hm : m < 2 ^ 53) (hp0 : -1074 ≤ p0)
    (hq : |q| = (m : ℚ) * (2 : ℚ) ^ p0) (hlt : |q| < (2 : ℚ) ^ (1024 : ℕ)) :
    F64.round q = F64.fin q := by
  by_cases hq0 : q = 0
  · subst hq0
    simp [F64.round]
  have habs : 0 < |q| := abs_pos.mpr hq0
  have hnum : q.num ≠ 0 := Rat.num_ne_zero.mpr hq0
  have hn : 0 < q.num.natAbs := Int.natAbs_pos.mpr hnum
  have hd : 0 < q.den := q.den_pos
  have ha := natAbs_num_div_den q
  have p20 : (0 : ℚ) < (2 : ℚ) ^ p0 := by positivity
  have hmq : (m : ℚ) < (2 : ℚ) ^ (53 : ℕ) := by exact_mod_cast hm
  have he : ilog2 q.num.natAbs q.den < 53 + p0 := by
    apply ilog2_lt _ _ hn hd
    rw [ha, hq, zpow_add₀ (by norm_num : (2 : ℚ) ≠ 0)]
    have : (2 : ℚ) ^ (53 : ℤ) = (2 : ℚ) ^ (53 : ℕ) := by norm_cast
    rw [this]
    exact mul_lt_mul_of_pos_right hmq p20
  have hp : quantum q.num.natAbs q.den ≤ p0 := by
    unfold quantum
    exact max_le (by omega) hp0
  set p := quantum q.num.natAbs q.den with hpdef
  have hd' : 0 < q.den * 2 ^ p.toNat := Nat.mul_pos hd (by positivity)
  have hd'q : (0 : ℚ) < ((q.den * 2 ^ p.toNat : ℕ) : ℚ) := by exact_mod_cast hd'
  have hy := scaled_div q.num.natAbs q.den p
  rw [ha, hq] at hy
  have hK : (m : ℚ) * 2 ^ p0 / 2 ^ p = ((m * 2 ^ (p0 - p).toNat : ℕ) : ℚ) := by
    push_cast
    rw [mul_div_assoc, ← zpow_sub₀ (by norm_num : (2 : ℚ) ≠ 0)]
    congr 1
    have : p0 - p = ((p0 - p).toNat : ℤ) := (Int.toNat_of_nonneg (by omega)).symm
    conv_lhs => rw [this]
    exact zpow_natCast _ _
  rw [hK, div_eq_iff hd'q.ne'] at hy
  have hyN : q.num.natAbs * 2 ^ (-p).toNat = m * 2 ^ (p0 - p).toNat * (q.den * 2 ^ p.toNat) := by
    exact_mod_cast hy
  have hr := rne_exact _ _ _ hd' hyN
  have hv : roundMag q.num.natAbs q.den = |q| := by
    unfold roundMag
    simp only [← hpdef]
    rw [hr, ← hK, hq]
    have : (2 : ℚ) ^ p ≠ 0 := by positivity
    field_simp
  unfold F64.round
  rw [if_neg hq0]
  simp only [hv]
  rw [if_neg (not_le.mpr hlt), if_neg habs.ne']
  congr 1
  split
  · rename_i h
    rw [abs_of_neg h]
    ring
  · rename_i h
    exact abs_of_nonneg (not_lt.mp h)

theorem ofInt_exact (z : ℤ) (hz : |z| < 2 ^ 53) : F64.ofInt z = F64.fin (z : ℚ) := by
  unfold F64.ofInt
  have hnat : z.natAbs < 2 ^ 53 := by
    have : (z.natAbs : ℤ) < 2 ^ 53 := by rw [Int.natCast_natAbs]; exact hz
    exact_mod_cast this
  apply round_exact (z : ℚ) z.natAbs 0 hnat (by norm_num)
  · rw [zpow_zero, mul_one, Nat.cast_natAbs, Int.cast_abs]
  · have h1 : |(z : ℚ)| < (2 : ℚ) ^ (53 : ℕ) := by
      rw [← Int.cast_abs]
      exact_mod_cast hz
    have h2 : (2 : ℚ) ^ (53 : ℕ) < (2 : ℚ) ^ (1024 : ℕ) :=
      pow_lt_pow_right₀ (by norm_num) (by norm_num)
    linarith

/-! ## Truncation and exact quotients -/

theorem tdiv_num_den (r : ℚ) : Int.tdiv r.num r.den = truncQ r := by
  unfold truncQ
  split
  · rename_i h
    rw [Int.tdiv_eq_ediv (Rat.num_nonneg.mpr h) (by exact_mod_cast Nat.zero_le _), Rat.floor_def]
  · rename_i h
    have hneg : 0 ≤ (-r).num := Rat.num_nonneg.mpr (by linarith)
    have h1 : Int.tdiv r.num r.den = -Int.tdiv (-r.num) r.den := by
      rw [Int.neg_tdiv, neg_neg]
    rw [h1, Rat.floor_def, Rat.neg_num, Rat.neg_den]
    rw [Rat.neg_num] at hneg
    rw [Int.tdiv_eq_ediv hneg (by exact_mod_cast Nat.zero_le _)]

theorem tdiv_pos_den (n : ℤ) (C : ℕ) : Int.tdiv n (C : ℤ) = truncQ ((n : ℚ) / (C : ℚ)) := by
  rcases Nat.eq_zero_or_pos C with h0 | hC
  · subst h0
    simp [truncQ]
  have hCq : (0 : ℚ) < C := by exact_mod_cast hC
  unfold truncQ
  rcases le_or_lt 0 n with hn | hn
  · have : (0 : ℚ) ≤ (n : ℚ) / C := div_nonneg (by exact_mod_cast hn) hCq.le
    rw [if_pos this, Rat.floor_intCast_div_natCast,
      Int.tdiv_eq_ediv hn (by exact_mod_cast Nat.zero_le _)]
  · have : ¬ ((0 : ℚ) ≤ (n : ℚ) / C) := by
      rw [not_le]
      exact div_neg_of_neg_of_pos (by exact_mod_cast hn) hCq
    rw [if_neg this]
    have h1 : Int.tdiv n (C : ℤ) = -Int.tdiv (-n) (C : ℤ) := by
      rw [Int.neg_tdiv, neg_neg]
    have h2 : -((n : ℚ) / C) = (((-n : ℤ)) : ℚ) / C := by
      push_cast
      ring
    rw [h1, h2, Rat.floor_intCast_div_natCast,
      Int.tdiv_eq_ediv (by omega) (by exact_mod_cast Nat.zero_le _)]

theorem tdiv_eq_truncQ (n c : ℤ) : Int.tdiv n c = truncQ ((n : ℚ) / (c : ℚ)) := by
  rcases le_or_lt 0 c with hc | hc
  · lift c to ℕ using hc
    exact tdiv_pos_den n c
  · obtain ⟨C, rfl⟩ : ∃ C : ℕ, c = -(C : ℤ) := ⟨(-c).toNat, by omega⟩
    have h1 : Int.tdiv n (-(C : ℤ)) = Int.tdiv (-n) (C : ℤ) := by
      rw [Int.tdiv_neg, Int.neg_tdiv]
    have h2 : (n : ℚ) / ((-(C : ℤ) : ℤ) : ℚ) = (((-n : ℤ)) : ℚ) / (C : ℚ) := by
      push_cast
      rw [div_neg, neg_div]
    rw [h1, h2]
    exact tdiv_pos_den (-n) C

theorem floor_of_near (N C : ℕ) (hC : 0 < C) (hr : N % C ≠ 0) (x : ℚ)
    (hx : |x - (N : ℚ) / C| < 1 / (C : ℚ)) : ⌊x⌋ = ((N / C : ℕ) : ℤ) := by
  have hCq : (0 : ℚ) < C := by exact_mod_cast hC
  have hmod : N % C < C := Nat.mod_lt N hC
  have hsplit : (N : ℚ) / C = ((N / C : ℕ) : ℚ) + ((N % C : ℕ) : ℚ) / C := by
    have h := Nat.div_add_mod N C
    have h' : (N : ℚ) = (C : ℚ) * ((N / C : ℕ) : ℚ) + ((N % C : ℕ) : ℚ) := by exact_mod_cast h.symm
    field_simp
    linarith
  have h1 : (1 : ℚ) / C ≤ ((N % C : ℕ) : ℚ) / C := by
    apply div_le_div_of_nonneg_right _ hCq.le
    have : 1 ≤ N % C := Nat.one_le_iff_ne_zero.mpr hr
    exact_mod_cast this
  have h2 : ((N % C : ℕ) : ℚ) / C + 1 / C ≤ 1 := by
    rw [← add_div, div_le_one hCq]
    have : N % C + 1 ≤ C := hmod
    exact_mod_cast this
  rw [abs_lt] at hx
  rw [Int.floor_eq_iff, Int.cast_natCast]
  constructor <;> linarith

theorem truncQ_of_floor_abs (x : ℚ) (K : ℕ) (h : ⌊|x|⌋ = (K : ℤ)) :
    truncQ x = if 0 ≤ x then (K : ℤ) else -(K : ℤ) := by
  unfold truncQ
  split
  · rename_i hx
    rw [abs_of_nonneg hx] at h
    exact h
  · rename_i hx
    rw [abs_of_neg (not_le.mp hx)] at h
    rw [h]

theorem toInt_fin (ub : F64 → Int) (r : ℚ) (h : -(2 : ℤ) ^ 63 ≤ truncQ r ∧ truncQ r < 2 ^ 63) :
    F64.toInt ub (F64.fin r) = truncQ r := by
  unfold F64.toInt
  simp only [tdiv_num_den]
  rw [if_pos h]

theorem toInt_zero (ub : F64 → Int) (b : Bool) : F64.toInt ub (F64.zero b) = 0 := by
  cases b
  · have : truncQ 0 = 0 := by simp [truncQ]
    have h := toInt_fin ub 0 (by rw [this]; norm_num)
    rw [this] at h
    exact h
  · rfl

theorem div_fin_fin (a b : ℚ) : F64.div (F64.fin a) (F64.fin b) =
    if b = 0 then (if a = 0 then F64.nan else F64.inf (decide (a < 0) != decide (b < 0)))
    else if a = 0 then F64.zero (decide (a < 0) != decide (b < 0))
    else F64.round (a / b) := rfl

theorem mul_fin_fin (a b : ℚ) : F64.mul (F64.fin a) (F64.fin b) =
    if a * b = 0 then F64.zero (decide (a < 0) != decide (b < 0))
    else F64.round (a * b) := rfl

theorem sub_fin_fin (a b : ℚ) : F64.sub (F64.fin a) (F64.fin b) =
    if b = 0 then F64.fin a else F64.round (a - b) := by
  by_cases hb : b = 0
  · simp [F64.sub, F64.neg, hb, F64.add]
  · simp [F64.sub, F64.neg, hb, F64.add, sub_eq_add_neg]

theorem truncQ_intCast (z : ℤ) : truncQ (z : ℚ) = z := by
  unfold truncQ
  split
  · exact Int.floor_intCast z
  · have : -(z : ℚ) = ((-z : ℤ) : ℚ) := by push_cast; ring
    rw [this, Int.floor_intCast]
    ring

theorem div_toInt_exact (ub : F64 → Int) (n c : ℤ) (hc : c ≠ 0) (hn : |n| < 2 ^ 53)
    (hcb : |c| < 2 ^ 53) :
    F64.toInt ub (F64.div (F64.fin n) (F64.fin c)) = Int.tdiv n c := by
  have hcq : (c : ℚ) ≠ 0 := by exact_mod_cast hc
  rw [div_fin_fin, if_neg hcq]
  by_cases hn0 : n = 0
  · subst hn0
    simp only [Int.cast_zero, if_true, Int.zero_tdiv]
    exact toInt_zero ub _
  have hnq : (n : ℚ) ≠ 0 := by exact_mod_cast hn0
  rw [if_neg hnq]
  by_cases hdvd : c ∣ n
  · obtain ⟨z, rfl⟩ := hdvd
    have hz : |z| < 2 ^ 53 := by
      have h1 : |z| ≤ |c * z| := by
        rw [abs_mul]
        have : 1 ≤ |c| := Int.one_le_abs hc
        nlinarith [abs_nonneg z]
      omega
    have hq : ((c * z : ℤ) : ℚ) / (c : ℚ) = (z : ℚ) := by
      push_cast
      field_simp
    rw [hq, Int.mul_tdiv_cancel_left z hc]
    have := ofInt_exact z hz
    unfold F64.ofInt at this
    have hzr : -(2 : ℤ) ^ 63 ≤ truncQ (z : ℚ) ∧ truncQ (z : ℚ) < 2 ^ 63 := by
      rw [truncQ_intCast]
      have hz2 := abs_lt.mp hz
      constructor <;> omega
    rw [this, toInt_fin ub _ hzr, truncQ_intCast]
  · set N := n.natAbs with hN
    set C := c.natAbs with hC
    have hCpos : 0 < C := Int.natAbs_pos.mpr hc
    have hNpos : 0 < N := Int.natAbs_pos.mpr hn0
    have hCq : (0 : ℚ) < (C : ℚ) := by exact_mod_cast hCpos
    have hNq : (0 : ℚ) < (N : ℚ) := by exact_mod_cast hNpos
    have hmod : N % C ≠ 0 := by
      intro h
      exact hdvd (Int.natAbs_dvd_natAbs.mp (Nat.dvd_of_mod_eq_zero h))
    have hNlt : (N : ℚ) < (2 : ℚ) ^ (53 : ℕ) := by
      have : (N : ℤ) < 2 ^ 53 := by rw [hN, Int.natCast_natAbs]; exact hn
      exact_mod_cast this
    have hCle : (C : ℚ) < (2 : ℚ) ^ (53 : ℕ) := by
      have : (C : ℤ) < 2 ^ 53 := by rw [hC, Int.natCast_natAbs]; exact hcb
      exact_mod_cast this
    have habsq : |(n : ℚ) / (c : ℚ)| = (N : ℚ) / (C : ℚ) := by
      rw [abs_div, hN, hC, Nat.cast_natAbs, Nat.cast_natAbs, Int.cast_abs, Int.cast_abs]
    have hqlo : (2 : ℚ) ^ (-1022 : ℤ) ≤ |(n : ℚ) / (c : ℚ)| := by
      rw [habsq, le_div_iff₀ hCq]
      have h1 : (2 : ℚ) ^ (-1022 : ℤ) ≤ (2 : ℚ) ^ (-53 : ℤ) :=
        zpow_le_zpow_right₀ (by norm_num) (by norm_num)
      have h2 : (2 : ℚ) ^ (-53 : ℤ) * (2 : ℚ) ^ (53 : ℕ) = 1 := by
        rw [← zpow_natCast, ← zpow_add₀ (by norm_num : (2 : ℚ) ≠ 0)]
        norm_num
      have h3 : (1 : ℚ) ≤ N := by exact_mod_cast hNpos
      have p53 : (0 : ℚ) < (2 : ℚ) ^ (-53 : ℤ) := by positivity
      nlinarith
    have hqhi : |(n : ℚ) / (c : ℚ)| < (2 : ℚ) ^ (1023 : ℤ) := by
      rw [habsq]
      have h1 : (N : ℚ) / C ≤ N := by
        rw [div_le_iff₀ hCq]
        have : (1 : ℚ) ≤ C := by exact_mod_cast hCpos
        nlinarith
      have h2 : (2 : ℚ) ^ (53 : ℕ) < (2 : ℚ) ^ (1023 : ℤ) := by
        rw [← zpow_natCast]
        exact zpow_lt_zpow_right₀ (by norm_num) (by norm_num)
      linarith
    obtain ⟨r, hr, hpos, hneg, herr, -⟩ := round_normal _ hqlo hqhi
    rw [hr]
    have herr2 : |(|r| - (N : ℚ) / C)| < 1 / (C : ℚ) := by
      have h1 : |(|r| - |(n : ℚ) / (c : ℚ)|)| ≤ |r - (n : ℚ) / (c : ℚ)| := abs_abs_sub_abs_le _ _
      rw [habsq] at h1 herr
      have h2 : (N : ℚ) / C * (2 : ℚ) ^ (-53 : ℤ) < 1 / (C : ℚ) := by
        rw [div_mul_eq_mul_div, div_lt_div_iff_of_pos_right hCq]
        have h2 : (2 : ℚ) ^ (-53 : ℤ) * (2 : ℚ) ^ (53 : ℕ) = 1 := by
          rw [← zpow_natCast, ← zpow_add₀ (by norm_num : (2 : ℚ) ≠ 0)]
          norm_num
        have p53 : (0 : ℚ) < (2 : ℚ) ^ (-53 : ℤ) := by positivity
        nlinarith
      linarith
    have hfr := floor_of_near N C hCpos hmod |r| herr2
    have hfq : ⌊|(n : ℚ) / (c : ℚ)|⌋ = ((N / C : ℕ) : ℤ) := by
      apply floor_of_near N C hCpos hmod
      rw [habsq, sub_self, abs_zero]
      positivity
    have hq0 : (n : ℚ) / (c : ℚ) ≠ 0 := div_ne_zero hnq hcq
    have hsign : (0 ≤ r) ↔ (0 ≤ (n : ℚ) / (c : ℚ)) := by
      constructor
      · intro h
        by_contra h'
        have := hneg (not_le.mp h')
        linarith
      · intro h
        exact (hpos (lt_of_le_of_ne h (Ne.symm hq0))).le
    have htr : truncQ r = truncQ ((n : ℚ) / (c : ℚ)) := by
      rw [truncQ_of_floor_abs r _ hfr, truncQ_of_floor_abs _ _ hfq]
      by_cases h : 0 ≤ r
      · rw [if_pos h, if_pos (hsign.mp h)]
      · rw [if_neg h, if_neg (fun h' => h (hsign.mpr h'))]
    have hKlt : N / C < 2 ^ 53 := by
      have h1 : N / C ≤ N := Nat.div_le_self N C
      have h2 : N < 2 ^ 53 := by exact_mod_cast hNlt
      omega
    have hrange : -(2 : ℤ) ^ 63 ≤ truncQ r ∧ truncQ r < 2 ^ 63 := by
      rw [truncQ_of_floor_abs r _ hfr]
      generalize N / C = K at hKlt
      split <;> constructor <;> omega
    rw [toInt_fin ub r hrange, htr, tdiv_eq_truncQ]

/-! ## `calculateCPUUsage` on a well-formed line -/

theorem wrap64_id (z : ℤ) (h : InI64 z) : wrap64 z = z := by
  unfold InI64 at h
  unfold wrap64
  omega

theorem sumFields_exists (fs : List Str) (vals : List Int)
    (hparse : List.Forall₂ (fun f v => parseInt f = .ok v) fs vals) (acc : Int) :
    ∃ t, sumFields acc fs = .ok t := by
  induction hparse generalizing acc with
  | nil => exact ⟨acc, rfl⟩
  | cons h _ ih =>
    simp only [sumFields, h]
    exact ih _

theorem sumFields_sum (fs : List Str) (vals : List Int)
    (hparse : List.Forall₂ (fun f v => parseInt f = .ok v) fs vals) (acc : Int)
    (hnn : ∀ v ∈ vals, 0 ≤ v) (hacc : 0 ≤ acc) (hsum : acc + vals.sum < 2 ^ 63) :
    sumFields acc fs = .ok (acc + vals.sum) := by
  induction hparse generalizing acc with
  | nil => simp [sumFields]
  | @cons f v fs vs h _ ih =>
    simp only [sumFields, h]
    have hv : 0 ≤ v := hnn v (List.mem_cons_self _ _)
    have hvs : ∀ w ∈ vs, 0 ≤ w := fun w hw => hnn w (List.mem_cons_of_mem _ hw)
    have hs : 0 ≤ vs.sum := List.sum_nonneg hvs
    rw [List.sum_cons] at hsum
    have hw : wrap64 (acc + v) = acc + v := wrap64_id _ ⟨by omega, by omega⟩
    rw [hw, ih (acc + v) hvs (by omega) (by omega), List.sum_cons]
    congr 1
    ring

theorem processCpuLine_ok (ub : F64 → Int) (st : CpuState) (fs : List Str) (vals : List Int)
    (hparse : List.Forall₂ (fun f v => parseInt f = .ok v) fs vals) (hlen : 4 ≤ vals.length)
    (total : Int) (htotal : sumFields 0 fs = .ok total) :
    processCpuLine ub st ("cpu".toList :: fs) =
      .ret (F64.toInt ub (cpuUsageExpr st total (vals.getD 3 0))) none ⟨total, vals.getD 3 0⟩ := by
  match vals, hparse, hlen with
  | v0 :: v1 :: v2 :: v3 :: vr, hp, _ =>
    rw [List.forall₂_cons_right_iff] at hp
    obtain ⟨f0, r0, _, hp, rfl⟩ := hp
    rw [List.forall₂_cons_right_iff] at hp
    obtain ⟨f1, r1, _, hp, rfl⟩ := hp
    rw [List.forall₂_cons_right_iff] at hp
    obtain ⟨f2, r2, _, hp, rfl⟩ := hp
    rw [List.forall₂_cons_right_iff] at hp
    obtain ⟨f3, r3, h3, hp, rfl⟩ := hp
    unfold processCpuLine
    simp only [List.tail_cons, htotal]
    simp only [List.get?_cons_succ, List.get?_cons_zero, h3]
    rfl

theorem cpuUsageExpr_exact (ub : F64 → Int) (st : CpuState) (total idle : Int)
    (ht : 0 ≤ total ∧ total < 2 ^ 45) (hi : 0 ≤ idle ∧ idle < 2 ^ 45)
    (hpt : 0 ≤ st.cpuPrevTotal ∧ st.cpuPrevTotal < 2 ^ 45)
    (hpi : 0 ≤ st.cpuPrevIdle ∧ st.cpuPrevIdle < 2 ^ 45) (hne : total ≠ st.cpuPrevTotal) :
    F64.toInt ub (cpuUsageExpr st total idle) =
      Int.tdiv (100 * ((total - st.cpuPrevTotal) - (idle - st.cpuPrevIdle)))
        (total - st.cpuPrevTotal) := by
  unfold cpuUsageExpr
  have hdt : wrap64 (total - st.cpuPrevTotal) = total - st.cpuPrevTotal :=
    wrap64_id _ ⟨by omega, by omega⟩
  have hdi : wrap64 (idle - st.cpuPrevIdle) = idle - st.cpuPrevIdle :=
    wrap64_id _ ⟨by omega, by omega⟩
  rw [hdt, hdi]
  set dt := total - st.cpuPrevTotal with hdtdef
  set di := idle - st.cpuPrevIdle with hdidef
  have bdt : |dt| < 2 ^ 53 := by rw [abs_lt]; constructor <;> omega
  have bdi : |di| < 2 ^ 53 := by rw [abs_lt]; constructor <;> omega
  have bs : |dt - di| < 2 ^ 53 := by rw [abs_lt]; constructor <;> omega
  have bn : |100 * (dt - di)| < 2 ^ 53 := by rw [abs_lt]; constructor <;> omega
  have b100 : |(100 : ℤ)| < 2 ^ 53 := by norm_num
  have hsub : F64.sub (F64.ofInt dt) (F64.ofInt di) = F64.fin ((dt - di : ℤ) : ℚ) := by
    rw [ofInt_exact dt bdt, ofInt_exact di bdi, sub_fin_fin]
    split
    · rename_i h
      have : di = 0 := by exact_mod_cast h
      rw [this, sub_zero]
    · have := ofInt_exact (dt - di) bs
      unfold F64.ofInt at this
      rw [← this]
      push_cast
      rfl
  have hmul : F64.mul (F64.ofInt 100) (F64.fin ((dt - di : ℤ) : ℚ)) =
      F64.fin ((100 * (dt - di) : ℤ) : ℚ) := by
    rw [ofInt_exact 100 b100, mul_fin_fin]
    split
    · rename_i h
      have h0 : dt - di = 0 := by
        have : ((100 * (dt - di) : ℤ) : ℚ) = 0 := by push_cast; exact_mod_cast h
        have : 100 * (dt - di) = 0 := by exact_mod_cast this
        omega
      rw [h0]
      simp [F64.zero]
    · have := ofInt_exact (100 * (dt - di)) bn
      unfold F64.ofInt at this
      rw [← this]
      push_cast
      rfl
  rw [hsub, hmul, ofInt_exact dt bdt]
  exact div_toInt_exact ub _ _ (by omega) bn bdt

theorem calculateCPUUsage_on_cpu_line (ub : F64 → Int) (st : CpuState) (contents : Str)
    (pre : List Str) (line : Str) (post : List Str)
    (hsplit : splitLines contents = pre ++ line :: post) (hpre : ∀ x ∈ pre, ¬ IsCpuLine x)
    (hline : IsCpuLine line) :
    calculateCPUUsage ub st (some contents) = processCpuLine ub st (fields line) := by
  simp only [calculateCPUUsage, hsplit]
  exact cpuLoop_skip ub st pre line post hpre hline

theorem isCpuLine_of_fields (line : Str) (fs : List Str) (h : fields line = "cpu".toList :: fs) :
    IsCpuLine line := by
  unfold IsCpuLine
  rw [h]
  rfl

theorem idle_le_sum (vals : List Int) (hnn : ∀ v ∈ vals, 0 ≤ v) :
    0 ≤ vals.getD 3 0 ∧ vals.getD 3 0 ≤ vals.sum := by
  have hs : ∀ l : List Int, (∀ v ∈ l, 0 ≤ v) → 0 ≤ l.sum := fun l hl => List.sum_nonneg hl
  match vals, hnn with
  | [], _ => simp
  | [a], h =>
    have := h a (by simp)
    simp
    exact this
  | [a, b], h =>
    have := h a (by simp)
    have := h b (by simp)
    simp
    omega
  | [a, b, c], h =>
    have := h a (by simp)
    have := h b (by simp)
    have := h c (by simp)
    simp
    omega
  | a :: b :: c :: d :: r, h =>
    have := h a (by simp)
    have := h b (by simp)
    have := h c (by simp)
    have := h d (by simp)
    have hr : 0 ≤ r.sum := hs r (fun v hv => h v (by simp [hv]))
    simp
    omega

theorem calculateCPUUsage_wellformed (ub : F64 → Int) (st : CpuState) (contents : Str)
    (pre : List Str) (line : Str) (post : List Str) (fs : List Str) (vals : List Int)
    (hsplit : splitLines contents = pre ++ line :: post) (hpre : ∀ x ∈ pre, ¬ IsCpuLine x)
    (hfields : fields line = "cpu".toList :: fs)
    (hparse : List.Forall₂ (fun f v => parseInt f = .ok v) fs vals) (hlen : 4 ≤ vals.length)
    (hnn : ∀ v ∈ vals, 0 ≤ v) (hsum : vals.sum < 2 ^ 45)
    (hpt : 0 ≤ st.cpuPrevTotal ∧ st.cpuPrevTotal < 2 ^ 45)
    (hpi : 0 ≤ st.cpuPrevIdle ∧ st.cpuPrevIdle < 2 ^ 45) (hne : vals.sum ≠ st.cpuPrevTotal) :
    calculateCPUUsage ub st (some contents) =
      .ret (Int.tdiv (100 * ((vals.sum - st.cpuPrevTotal) - (vals.getD 3 0 - st.cpuPrevIdle)))
        (vals.sum - st.cpuPrevTotal)) none ⟨vals.sum, vals.getD 3 0⟩ := by
  have hs : 0 ≤ vals.sum := List.sum_nonneg hnn
  have htotal : sumFields 0 fs = .ok vals.sum := by
    have := sumFields_sum fs vals hparse 0 hnn (le_refl 0) (by omega)
    rw [zero_add] at this
    exact this
  obtain ⟨hi0, hi1⟩ := idle_le_sum vals hnn
  rw [calculateCPUUsage_on_cpu_line ub st contents pre line post hsplit hpre
      (isCpuLine_of_fields line fs hfields), hfields,
    processCpuLine_ok ub st fs vals hparse hlen vals.sum htotal,
    cpuUsageExpr_exact ub st vals.sum (vals.getD 3 0) ⟨hs, hsum⟩ ⟨hi0, by omega⟩ hpt hpi hne]

/-- C1 (as amended): for a call whose `cpu` line carries at least four integer
fields, all non-negative with a sum `total` below `2 ^ 45`, on a stored state
within the same bounds and with `total ≠ cpuPrevTotal`, the call returns a nil
error and the percentage
`100 * ((total - cpuPrevTotal) - (idle - cpuPrevIdle)) / (total - cpuPrevTotal)`
truncated toward zero, where `idle` is the fourth numeric field; afterwards the
state holds `total` and `idle`. -/
theorem calculateCPUUsage_percentage (ub : F64 → Int) (st : CpuState) (contents : Str)
    (pre : List Str) (line : Str) (post : List Str) (fs : List Str) (vals : List Int)
    (hsplit : splitLines contents = pre ++ line :: post) (hpre : ∀ x ∈ pre, ¬ IsCpuLine x)
    (hfields : fields line = "cpu".toList :: fs)
    (hparse : List.Forall₂ (fun f v => parseInt f = .ok v) fs vals) (hlen : 4 ≤ vals.length)
    (hnn : ∀ v ∈ vals, 0 ≤ v) (hsum : vals.sum < 2 ^ 45)
    (hpt : 0 ≤ st.cpuPrevTotal ∧ st.cpuPrevTotal < 2 ^ 45)
    (hpi : 0 ≤ st.cpuPrevIdle ∧ st.cpuPrevIdle < 2 ^ 45) (hne : vals.sum ≠ st.cpuPrevTotal) :
    calculateCPUUsage ub st (some contents) =
      .ret (Int.tdiv (100 * ((vals.sum - st.cpuPrevTotal) - (vals.getD 3 0 - st.cpuPrevIdle)))
        (vals.sum - st.cpuPrevTotal)) none ⟨vals.sum, vals.getD 3 0⟩ :=
  calculateCPUUsage_wellformed ub st contents pre line post fs vals hsplit hpre hfields hparse
    hlen hnn hsum hpt hpi hne

theorem calculateCPUUsage_percentage_witness :
    calculateCPUUsage amd64 ⟨1000, 800⟩ (some "cpu  500 0 100 1300 100\ncpu0 1 2 3 4 5\n".toList) =
      .ret 50 none ⟨2000, 1300⟩ :=
  (calculateCPUUsage_percentage amd64 ⟨1000, 800⟩ "cpu  500 0 100 1300 100\ncpu0 1 2 3 4 5\n".toList
    [] "cpu  500 0 100 1300 100".toList ["cpu0 1 2 3 4 5".toList, []]
    ["500".toList, "0".toList, "100".toList, "1300".toList, "100".toList] [500, 0, 100, 1300, 100]
    (by decide) (by simp) (by decide)
    (.cons (by decide) (.cons (by decide) (.cons (by decide) (.cons (by decide)
      (.cons (by decide) .nil)))))
    (by decide) (by decide) (by decide) (by decide) (by decide) (by decide)).trans (by decide)

/-- C1, counterexample: after a successful first call leaving the state `(2, 1)`,
a second call on counters of magnitude `2 ^ 62` returns `100`, while the stated
quotient truncates to `99`: the conversion to `float64` rounds the operands. -/
theorem calculateCPUUsage_percentage_counterexample :
    calculateCPUUsage amd64 CpuState.init (some "cpu 1 0 0 1\n".toList) = .ret 50 none ⟨2, 1⟩ ∧
      calculateCPUUsage amd64 ⟨2, 1⟩ (some "cpu 4611686018427387905 0 0 2\n".toList) =
        .ret 100 none ⟨4611686018427387907, 2⟩ ∧
      Int.tdiv (100 * ((4611686018427387907 - 2) - (2 - 1))) (4611686018427387907 - 2) = 99 := by
  decide!

/-- C4 (as amended): the first call of a process (stored state `(0, 0)`) on a
`cpu` line with at least four integer fields, non-negative and of non-zero sum
`total < 2 ^ 45`, is not flagged: it returns a nil error with the percentage
`100 * (total - idle) / total` computed against the zero baselines, truncated
toward zero, and stores `total` and `idle`. -/
theorem calculateCPUUsage_first_sample (ub : F64 → Int) (contents : Str)
    (pre : List Str) (line : Str) (post : List Str) (fs : List Str) (vals : List Int)
    (hsplit : splitLines contents = pre ++ line :: post) (hpre : ∀ x ∈ pre, ¬ IsCpuLine x)
    (hfields : fields line = "cpu".toList :: fs)
    (hparse : List.Forall₂ (fun f v => parseInt f = .ok v) fs vals) (hlen : 4 ≤ vals.length)
    (hnn : ∀ v ∈ vals, 0 ≤ v) (hsum : vals.sum < 2 ^ 45) (hne : vals.sum ≠ 0) :
    calculateCPUUsage ub CpuState.init (some contents) =
      .ret (Int.tdiv (100 * (vals.sum - vals.getD 3 0)) vals.sum) none
        ⟨vals.sum, vals.getD 3 0⟩ := by
  have h := calculateCPUUsage_wellformed ub CpuState.init contents pre line post fs vals hsplit
    hpre hfields hparse hlen hnn hsum ⟨le_refl _, by norm_num [CpuState.init]⟩
    ⟨le_refl _, by norm_num [CpuState.init]⟩ hne
  simp only [CpuState.init, sub_zero] at h
  exact h

theorem calculateCPUUsage_first_sample_witness :
    calculateCPUUsage amd64 CpuState.init (some "cpu 100 0 50 800 50\n".toList) =
      .ret 20 none ⟨1000, 800⟩ :=
  (calculateCPUUsage_first_sample amd64 "cpu 100 0 50 800 50\n".toList
    [] "cpu 100 0 50 800 50".toList [[]]
    ["100".toList, "0".toList, "50".toList, "800".toList, "50".toList] [100, 0, 50, 800, 50]
    (by decide) (by simp) (by decide)
    (.cons (by decide) (.cons (by decide) (.cons (by decide) (.cons (by decide)
      (.cons (by decide) .nil)))))
    (by decide) (by decide) (by decide) (by decide)).trans (by decide)

/-- C4, counterexample: the very first call, on the well-formed line
`cpu 100 0 50 800 50`, returns the percentage `20` with a nil error. -/
theorem calculateCPUUsage_first_sample_counterexample :
    calculateCPUUsage amd64 CpuState.init (some "cpu 100 0 50 800 50\n".toList) =
        .ret 20 none ⟨1000, 800⟩ ∧
      ¬ ∃ (v : Int) (e : GoError) (st1 : CpuState),
        calculateCPUUsage amd64 CpuState.init (some "cpu 100 0 50 800 50\n".toList) =
          .ret v (some e) st1 := by
  have h : calculateCPUUsage amd64 CpuState.init (some "cpu 100 0 50 800 50\n".toList) =
      .ret 20 none ⟨1000, 800⟩ := by decide!
  refine ⟨h, ?_⟩
  rintro ⟨v, e, st1, h'⟩
  rw [h] at h'
  injection h' with _ h2 _
  exact Option.noConfusion h2

theorem div_by_zero (x : F64) :
    F64.div x (F64.fin 0) = F64.nan ∨ F64.div x (F64.fin 0) = F64.inf true ∨
      F64.div x (F64.fin 0) = F64.inf false := by
  cases x with
  | nan => exact Or.inl rfl
  | inf s =>
    cases s
    · exact Or.inr (Or.inr rfl)
    · exact Or.inr (Or.inl rfl)
  | negZero => exact Or.inl rfl
  | fin a =>
    rw [div_fin_fin, if_pos rfl]
    split
    · exact Or.inl rfl
    · generalize (decide (a < 0) != decide ((0 : ℚ) < 0)) = b
      cases b
      · exact Or.inr (Or.inr rfl)
      · exact Or.inr (Or.inl rfl)

/-- C5: for every stored state and every `cpu` line with at least four integer
fields whose summed total equals the stored `cpuPrevTotal`, `calculateCPUUsage`
does not fail: it returns a nil error, with the conversion to `int` of the
division by zero (an infinity or NaN) as its value, and overwrites the state. -/
theorem calculateCPUUsage_zero_delta_nil_error (ub : F64 → Int) (st : CpuState) (contents : Str)
    (pre : List Str) (line : Str) (post : List Str) (fs : List Str) (vals : List Int)
    (total : Int)
    (hsplit : splitLines contents = pre ++ line :: post) (hpre : ∀ x ∈ pre, ¬ IsCpuLine x)
    (hfields : fields line = "cpu".toList :: fs)
    (hparse : List.Forall₂ (fun f v => parseInt f = .ok v) fs vals) (hlen : 4 ≤ vals.length)
    (htotal : sumFields 0 fs = .ok total) (heq : total = st.cpuPrevTotal) :
    ∃ x, (x = F64.nan ∨ x = F64.inf true ∨ x = F64.inf false) ∧
      calculateCPUUsage ub st (some contents) = .ret (ub x) none ⟨total, vals.getD 3 0⟩ := by
  rw [calculateCPUUsage_on_cpu_line ub st contents pre line post hsplit hpre
      (isCpuLine_of_fields line fs hfields), hfields,
    processCpuLine_ok ub st fs vals hparse hlen total htotal]
  have h0 : wrap64 (total - st.cpuPrevTotal) = 0 := by
    rw [heq, sub_self]
    rfl
  have hz : F64.ofInt 0 = F64.fin 0 := by
    simp [F64.ofInt, F64.round]
  unfold cpuUsageExpr
  rw [h0, hz]
  generalize F64.mul (F64.ofInt 100)
    (F64.sub (F64.fin 0) (F64.ofInt (wrap64 (vals.getD 3 0 - st.cpuPrevIdle)))) = y
  rcases div_by_zero y with h | h | h
  · exact ⟨F64.nan, Or.inl rfl, by rw [h]; rfl⟩
  · exact ⟨F64.inf true, Or.inr (Or.inl rfl), by rw [h]; rfl⟩
  · exact ⟨F64.inf false, Or.inr (Or.inr rfl), by rw [h]; rfl⟩

theorem calculateCPUUsage_zero_delta_nil_error_witness :
    ∃ x, (x = F64.nan ∨ x = F64.inf true ∨ x = F64.inf false) ∧
      calculateCPUUsage amd64 ⟨1000, 800⟩ (some "cpu 100 200 300 400\n".toList) =
        .ret (amd64 x) none ⟨1000, ([100, 200, 300, 400] : List Int).getD 3 0⟩ :=
  calculateCPUUsage_zero_delta_nil_error amd64 ⟨1000, 800⟩ "cpu 100 200 300 400\n".toList
    [] "cpu 100 200 300 400".toList [[]]
    ["100".toList, "200".toList, "300".toList, "400".toList] [100, 200, 300, 400] 1000
    (by decide) (by simp) (by decide)
    (.cons (by decide) (.cons (by decide) (.cons (by decide) (.cons (by decide) .nil))))
    (by decide) (by decide) (by decide)

theorem calculateCPUUsage_zero_delta_value (ub : F64 → Int) :
    calculateCPUUsage ub ⟨1000, 800⟩ (some "cpu 100 200 300 400\n".toList) =
      .ret (ub (F64.inf false)) none ⟨1000, 400⟩ := by
  have hx : cpuUsageExpr ⟨1000, 800⟩ 1000 400 = F64.inf false := by decide!
  rw [calculateCPUUsage_on_cpu_line ub ⟨1000, 800⟩ "cpu 100 200 300 400\n".toList
      [] "cpu 100 200 300 400".toList [[]] (by decide) (by simp) (by decide)]
  have hf : fields "cpu 100 200 300 400".toList =
      "cpu".toList :: ["100".toList, "200".toList, "300".toList, "400".toList] := by decide
  rw [hf, processCpuLine_ok ub ⟨1000, 800⟩ _ [100, 200, 300, 400]
    (.cons (by decide) (.cons (by decide) (.cons (by decide) (.cons (by decide) .nil))))
    (by decide) 1000 (by decide)]
  show CpuOutcome.ret (F64.toInt ub (cpuUsageExpr ⟨1000, 800⟩ 1000 400)) none ⟨1000, 400⟩ = _
  rw [hx]
  rfl

/-! ## One iteration of the loop -/

theorem getMemoryUsage_error_value (ub : F64 → Int) (meminfo : Option Str)
    (h : (getMemoryUsage ub meminfo).2 ≠ none) : (getMemoryUsage ub meminfo).1 = 0 := by
  unfold getMemoryUsage at h ⊢
  cases meminfo with
  | none => rfl
  | some data =>
    simp only at h ⊢
    cases hm : memLoop (splitLines data) (0, 0) with
    | error e => rfl
    | ok p =>
      obtain ⟨available, total⟩ := p
      rw [hm] at h
      simp only at h ⊢
      by_cases ht : total = 0
      · rw [if_pos ht]
      · rw [if_neg ht] at h
        exact absurd rfl h

theorem getSpeeds_failed_read (rx0 tx0 rx1 tx1 : Option Str) (elapsed : Int)
    (h : (∃ e, getInterfaceBytes rx0 = .error e) ∨ (∃ e, getInterfaceBytes tx0 = .error e) ∨
      (∃ e, getInterfaceBytes rx1 = .error e) ∨ (∃ e, getInterfaceBytes tx1 = .error e)) :
    getSpeeds rx0 tx0 rx1 tx1 elapsed = (F64.fin 0, F64.fin 0, none) := by
  unfold getSpeeds
  cases h0 : getInterfaceBytes rx0 with
  | error e => rfl
  | ok a =>
    cases h1 : getInterfaceBytes tx0 with
    | error e => rfl
    | ok b =>
      cases h2 : getInterfaceBytes rx1 with
      | error e => rfl
      | ok c =>
        cases h3 : getInterfaceBytes tx1 with
        | error e => rfl
        | ok d =>
          rw [h0, h1, h2, h3] at h
          rcases h with ⟨e, he⟩ | ⟨e, he⟩ | ⟨e, he⟩ | ⟨e, he⟩ <;> exact Except.noConfusion he

theorem getSpeeds_all_read (rx0 tx0 rx1 tx1 : Option Str) (elapsed : Int) (a b c d : Int)
    (h0 : getInterfaceBytes rx0 = .ok a) (h1 : getInterfaceBytes tx0 = .ok b)
    (h2 : getInterfaceBytes rx1 = .ok c) (h3 : getInterfaceBytes tx1 = .ok d) :
    getSpeeds rx0 tx0 rx1 tx1 elapsed =
      (toMbps (F64.div (F64.ofInt (wrap64 (c - a))) (seconds elapsed)),
        toMbps (F64.div (F64.ofInt (wrap64 (d - b))) (seconds elapsed)), none) := by
  unfold getSpeeds
  rw [h0, h1, h2, h3]

/-- Partial result on an iteration in which `calculateCPUUsage` returns (with or
without an error) instead of panicking: the record is assembled, serialized and
handed to `publish`. A sampler that fails contributes its zero default (`"0"`
for `CPUUsage` or `MemoryUsage`; `"0.00"` for both `Download` and `Upload` as
soon as one interface counter read fails); every field of a sampler that
succeeds is the formatting of the value it computed; `WifiClients` is `"0"`.
The hypothesis cannot be dropped, see `cycle_short_cpu_line_panics`. -/
theorem cycle_degrades_failed_samplers (ub : F64 → Int) (st : CpuState) (inp : CycleInput)
    (cpu : Int) (cerr : Option GoError) (st1 : CpuState)
    (hcpu : calculateCPUUsage ub st inp.stat = .ret cpu cerr st1) :
    ∃ body : SystemUsage,
      cycle ub st inp = .published (marshal body) st1 ∧
      body.WifiClients = "0".toList ∧
      (cerr ≠ none → body.CPUUsage = "0".toList) ∧
      (cerr = none → body.CPUUsage = fmtD cpu) ∧
      ((getMemoryUsage ub inp.meminfo).2 ≠ none → body.MemoryUsage = "0".toList) ∧
      ((getMemoryUsage ub inp.meminfo).2 = none →
        body.MemoryUsage = fmtD (getMemoryUsage ub inp.meminfo).1) ∧
      (((∃ e, getInterfaceBytes inp.rx0 = .error e) ∨ (∃ e, getInterfaceBytes inp.tx0 = .error e) ∨
          (∃ e, getInterfaceBytes inp.rx1 = .error e) ∨ (∃ e, getInterfaceBytes inp.tx1 = .error e)) →
        body.Download = "0.00".toList ∧ body.Upload = "0.00".toList) ∧
      (∀ a b c d : Int, getInterfaceBytes inp.rx0 = .ok a → getInterfaceBytes inp.tx0 = .ok b →
        getInterfaceBytes inp.rx1 = .ok c → getInterfaceBytes inp.tx1 = .ok d →
        body.Download = fmtF2 (toMbps (F64.div (F64.ofInt (wrap64 (c - a))) (seconds inp.elapsed))) ∧
          body.Upload = fmtF2 (toMbps (F64.div (F64.ofInt (wrap64 (d - b))) (seconds inp.elapsed)))) := by
  refine ⟨assemble (getSpeeds inp.rx0 inp.tx0 inp.rx1 inp.tx1 inp.elapsed).1
    (getSpeeds inp.rx0 inp.tx0 inp.rx1 inp.tx1 inp.elapsed).2.1 cpu
    (getMemoryUsage ub inp.meminfo).1, ?_, ?_, ?_, ?_, ?_, ?_, ?_, ?_⟩
  · unfold cycle
    rw [hcpu]
  · rfl
  · intro h
    cases cerr with
    | none => exact absurd rfl h
    | some e =>
      have := (calculateCPUUsage_error_value ub st inp.stat cpu e st1 hcpu).1
      rw [this]
      rfl
  · intro _
    rfl
  · intro h
    show fmtD (getMemoryUsage ub inp.meminfo).1 = _
    rw [getMemoryUsage_error_value ub inp.meminfo h]
    rfl
  · intro _
    rfl
  · intro h
    show fmtF2 _ = _ ∧ fmtF2 _ = _
    rw [getSpeeds_failed_read _ _ _ _ _ h]
    constructor <;> decide
  · intro a b c d h0 h1 h2 h3
    show fmtF2 _ = _ ∧ fmtF2 _ = _
    rw [getSpeeds_all_read _ _ _ _ _ a b c d h0 h1 h2 h3]
    exact ⟨rfl, rfl⟩

theorem cycle_degrades_failed_samplers_witness :
    cycle amd64 ⟨1000, 800⟩
        ⟨some "1048576\n".toList, none, some "2097152\n".toList, some "7\n".toList, 1000000000,
          some "intr 5\n".toList, some "MemTotal: 1000 kB\nMemAvailable: 250 kB\n".toList⟩ =
      .published
        "\x7b\"CPUUsage\":\"0\",\"MemoryUsage\":\"75\",\"Download\":\"0.00\",\"Upload\":\"0.00\",\"WifiClients\":\"0\"\x7d".toList
        ⟨1000, 800⟩ := by
  obtain ⟨body, hpub, hw, hc, -, -, hm, hs, -⟩ := cycle_degrades_failed_samplers amd64 ⟨1000, 800⟩
    ⟨some "1048576\n".toList, none, some "2097152\n".toList, some "7\n".toList, 1000000000,
      some "intr 5\n".toList, some "MemTotal: 1000 kB\nMemAvailable: 250 kB\n".toList⟩
    0 (some .noCpuLine) ⟨1000, 800⟩ (by decide)
  have h1 := hc (by decide)
  have h2 := hm (by decide!)
  have h3 := hs (Or.inr (Or.inl ⟨.readFile, by decide⟩))
  have hb : body = ⟨"0".toList, "75".toList, "0.00".toList, "0.00".toList, "0".toList⟩ := by
    cases body
    simp only at h1 h2 h3 hw
    rw [h1, hw, h3.1, h3.2, h2]
    simp only [SystemUsage.mk.injEq, true_and, and_true]
    decide!
  rw [hpub, hb]
  decide

/-! ## `getMemoryUsage` with a missing entry -/

theorem parseDigits_lt (s : Str) (acc n : Nat) (hacc : acc < 2 ^ 64)
    (h : parseDigits acc s = .ok n) : n < 2 ^ 64 := by
  induction s generalizing acc with
  | nil =>
    simp only [parseDigits] at h
    injection h with h
    omega
  | cons c cs ih =>
    simp only [parseDigits] at h
    split at h
    · split at h
      · exact Except.noConfusion h
      · rename_i hlt
        exact ih _ (by omega) h
    · exact Except.noConfusion h

theorem parseUint_lt (s : Str) (n : Nat) (h : parseUint s = .ok n) : n < 2 ^ 64 := by
  unfold parseUint at h
  split at h
  · exact Except.noConfusion h
  · exact parseDigits_lt s 0 n (by norm_num) h

theorem parseInt_range (s : Str) (v : Int) (h : parseInt s = .ok v) : InI64 v := by
  unfold InI64
  unfold parseInt at h
  split at h
  · exact Except.noConfusion h
  · split at h
    · exact Except.noConfusion h
    · split at h
      · exact Except.noConfusion h
      · injection h with h
        omega
  · split at h
    · exact Except.noConfusion h
    · split at h
      · exact Except.noConfusion h
      · injection h with h
        omega
  · split at h
    · exact Except.noConfusion h
    · split at h
      · exact Except.noConfusion h
      · injection h with h
        omega

theorem memStep_no_total (line : Str) (a t a1 t1 : Int)
    (hno : ¬ IsMemLine "MemTotal:".toList line) (h : memStep line (a, t) = .ok (a1, t1)) :
    t1 = t := by
  unfold memStep at h
  simp only at h
  have hno' : ¬ (1 < (fields line).length ∧ (fields line).head? = some "MemTotal:".toList) := hno
  rw [if_neg hno'] at h
  simp only at h
  split at h
  · split at h
    · exact Except.noConfusion h
    · injection h with h
      injection h with _ h2
      exact h2.symm
  · injection h with h
    injection h with _ h2
    exact h2.symm

theorem memLoop_no_total (lines : List Str) (a t a1 t1 : Int)
    (hno : ∀ line ∈ lines, ¬ IsMemLine "MemTotal:".toList line)
    (h : memLoop lines (a, t) = .ok (a1, t1)) : t1 = t := by
  induction lines generalizing a t with
  | nil =>
    simp only [memLoop] at h
    injection h with h
    injection h with _ h2
    exact h2.symm
  | cons line rest ih =>
    simp only [memLoop] at h
    cases hs : memStep line (a, t) with
    | error e =>
      rw [hs] at h
      exact Except.noConfusion h
    | ok p =>
      obtain ⟨a2, t2⟩ := p
      rw [hs] at h
      have h1 := memStep_no_total line a t a2 t2 (hno line (List.mem_cons_self _ _)) hs
      have h2 := ih a2 t2 (fun l hl => hno l (List.mem_cons_of_mem _ hl)) h
      rw [h2, h1]

theorem memStep_no_available (line : Str) (a t a1 t1 : Int)
    (hno : ¬ IsMemLine "MemAvailable:".toList line) (ht : InI64 t)
    (h : memStep line (a, t) = .ok (a1, t1)) : a1 = a ∧ InI64 t1 := by
  unfold memStep at h
  simp only at h
  have hno' : ¬ (1 < (fields line).length ∧ (fields line).head? = some "MemAvailable:".toList) :=
    hno
  simp only [if_neg hno'] at h
  split at h
  · exact Except.noConfusion h
  · rename_i at1 heq
    injection h with h
    split at heq
    · split at heq
      · exact Except.noConfusion heq
      · rename_i v hv
        injection heq with heq
        rw [← heq] at h
        injection h with h1 h2
        exact ⟨h1.symm, h2 ▸ parseInt_range _ _ hv⟩
    · injection heq with heq
      rw [← heq] at h
      injection h with h1 h2
      exact ⟨h1.symm, h2 ▸ ht⟩

theorem memLoop_no_available (lines : List Str) (a t a1 t1 : Int)
    (hno : ∀ line ∈ lines, ¬ IsMemLine "MemAvailable:".toList line) (ht : InI64 t)
    (h : memLoop lines (a, t) = .ok (a1, t1)) : a1 = a ∧ InI64 t1 := by
  induction lines generalizing a t with
  | nil =>
    simp only [memLoop] at h
    injection h with h
    injection h with h1 h2
    exact ⟨h1.symm, h2 ▸ ht⟩
  | cons line rest ih =>
    simp only [memLoop] at h
    cases hs : memStep line (a, t) with
    | error e =>
      rw [hs] at h
      exact Except.noConfusion h
    | ok p =>
      obtain ⟨a2, t2⟩ := p
      rw [hs] at h
      obtain ⟨h1, h1'⟩ := memStep_no_available line a t a2 t2 (hno line (List.mem_cons_self _ _)) ht hs
      obtain ⟨h2, h2'⟩ := ih a2 t2 (fun l hl => hno l (List.mem_cons_of_mem _ hl)) h1' h
      exact ⟨h2.trans h1, h2'⟩

theorem ofInt_finite (t : ℤ) (ht : InI64 t) (h0 : t ≠ 0) :
    ∃ r, F64.ofInt t = F64.fin r ∧ ((0 : ℚ) < t → 0 < r) ∧ ((t : ℚ) < 0 → r < 0) ∧
      |r - (t : ℚ)| ≤ |(t : ℚ)| * (2 : ℚ) ^ (-53 : ℤ) := by
  unfold InI64 at ht
  have h1 : (1 : ℚ) ≤ |(t : ℚ)| := by
    rw [← Int.cast_abs]
    exact_mod_cast Int.one_le_abs h0
  have h2 : |(t : ℚ)| ≤ (2 : ℚ) ^ (63 : ℕ) := by
    rw [← Int.cast_abs]
    have : |t| ≤ 2 ^ 63 := by rw [abs_le]; constructor <;> omega
    exact_mod_cast this
  have hlo : (2 : ℚ) ^ (-1022 : ℤ) ≤ |(t : ℚ)| := by
    have : (2 : ℚ) ^ (-1022 : ℤ) ≤ (2 : ℚ) ^ (0 : ℤ) := zpow_le_zpow_right₀ (by norm_num) (by norm_num)
    rw [zpow_zero] at this
    linarith
  have hhi : |(t : ℚ)| < (2 : ℚ) ^ (1023 : ℤ) := by
    have : (2 : ℚ) ^ (63 : ℕ) < (2 : ℚ) ^ (1023 : ℤ) := by
      rw [← zpow_natCast]
      exact zpow_lt_zpow_right₀ (by norm_num) (by norm_num)
    linarith
  obtain ⟨r, hr, hpos, hneg, herr, -⟩ := round_normal _ hlo hhi
  exact ⟨r, hr, hpos, hneg, herr⟩

theorem memUsageExpr_no_available (total : ℤ) (ht : InI64 total) (h0 : total ≠ 0) :
    memUsageExpr 0 total = F64.fin 100 := by
  obtain ⟨r, hr, hpos, hneg, -⟩ := ofInt_finite total ht h0
  have hr0 : r ≠ 0 := by
    rcases lt_or_gt_of_ne h0 with h | h
    · exact (hneg (by exact_mod_cast h)).ne
    · exact (hpos (by exact_mod_cast h)).ne'
  have hz : F64.ofInt 0 = F64.fin 0 := by simp [F64.ofInt, F64.round]
  have h1 : F64.ofInt 1 = F64.fin 1 := by
    have := ofInt_exact 1 (by norm_num)
    simpa using this
  have h100 : F64.ofInt 100 = F64.fin 100 := by
    have := ofInt_exact 100 (by norm_num)
    simpa using this
  have hr1 : F64.round 1 = F64.fin 1 := by
    have := h1
    unfold F64.ofInt at this
    simpa using this
  have hr100 : F64.round 100 = F64.fin 100 := by
    have := h100
    unfold F64.ofInt at this
    simpa using this
  unfold memUsageExpr
  rw [hz, hr, h1, h100, div_fin_fin, if_neg hr0, if_pos rfl]
  have hsub : F64.sub (F64.fin 1) (F64.zero (decide ((0 : ℚ) < 0) != decide (r < 0))) = F64.fin 1 := by
    generalize (decide ((0 : ℚ) < 0) != decide (r < 0)) = b
    cases b
    · simp [F64.zero, sub_fin_fin]
    · simp [F64.zero, F64.sub, F64.neg, F64.add, hr1]
  rw [hsub, mul_fin_fin]
  norm_num
  exact hr100

/-- C6 (as amended): on a readable `/proc/meminfo` without a `MemTotal` line,
`getMemoryUsage` returns a non-nil error; without a `MemAvailable` line, a call
that returns a nil error (a `MemTotal` line with a non-zero total is there)
reports `100`, computed from `available` left at its default `0`. -/
theorem getMemoryUsage_missing_entry (ub : F64 → Int) (data : Str) :
    ((∀ line ∈ splitLines data, ¬ IsMemLine "MemTotal:".toList line) →
        (getMemoryUsage ub (some data)).2 ≠ none) ∧
      ((∀ line ∈ splitLines data, ¬ IsMemLine "MemAvailable:".toList line) →
        (getMemoryUsage ub (some data)).2 = none → (getMemoryUsage ub (some data)).1 = 100) := by
  constructor
  · intro hno
    unfold getMemoryUsage
    simp only
    cases hm : memLoop (splitLines data) (0, 0) with
    | error e => simp
    | ok p =>
      obtain ⟨a1, t1⟩ := p
      have := memLoop_no_total _ 0 0 a1 t1 hno hm
      subst this
      simp
  · intro hno
    unfold getMemoryUsage
    simp only
    cases hm : memLoop (splitLines data) (0, 0) with
    | error e => simp
    | ok p =>
      obtain ⟨a1, t1⟩ := p
      obtain ⟨ha, ht⟩ := memLoop_no_available _ 0 0 a1 t1 hno (by unfold InI64; norm_num) hm
      subst ha
      simp only
      by_cases h0 : t1 = 0
      · simp [h0]
      · rw [if_neg h0]
        intro _
        simp only
        rw [memUsageExpr_no_available t1 ht h0]
        have : truncQ 100 = 100 := by
          have := truncQ_intCast 100
          simpa using this
        rw [toInt_fin ub 100 (by rw [this]; norm_num), this]

theorem getMemoryUsage_missing_entry_witness :
    (getMemoryUsage amd64 (some "MemFree: 10 kB\nMemAvailable: 250 kB\n".toList)).2 ≠ none ∧
      (getMemoryUsage amd64 (some "MemTotal: 1000 kB\nMemFree: 10 kB\n".toList)).1 = 100 :=
  ⟨(getMemoryUsage_missing_entry amd64 "MemFree: 10 kB\nMemAvailable: 250 kB\n".toList).1
      (by decide),
    (getMemoryUsage_missing_entry amd64 "MemTotal: 1000 kB\nMemFree: 10 kB\n".toList).2
      (by decide) (by decide!)⟩

/-- C6, counterexample: a readable `/proc/meminfo` with a `MemTotal` line and no
`MemAvailable` line yields `100` with a nil error. -/
theorem getMemoryUsage_missing_entry_counterexample :
    (∀ line ∈ splitLines "MemTotal: 1000 kB\nMemFree: 10 kB\n".toList,
        ¬ IsMemLine "MemAvailable:".toList line) ∧
      getMemoryUsage amd64 (some "MemTotal: 1000 kB\nMemFree: 10 kB\n".toList) = (100, none) := by
  constructor
  · decide
  · decide!

/-! ## `getMemoryUsage`: the accuracy of the float evaluation -/

theorem ulp53 : (2 : ℚ) ^ (-53 : ℤ) = 1 / 9007199254740992 := by
  rw [zpow_neg, one_div]
  norm_num

theorem tiny_le : (2 : ℚ) ^ (-1022 : ℤ) ≤ 1 / 9007199254740992 := by
  rw [← ulp53]
  exact zpow_le_zpow_right₀ (by norm_num) (by norm_num)

theorem huge_ge : (1024 : ℚ) ≤ (2 : ℚ) ^ (1023 : ℤ) := by
  have h : (2 : ℚ) ^ (10 : ℤ) ≤ (2 : ℚ) ^ (1023 : ℤ) :=
    zpow_le_zpow_right₀ (by norm_num) (by norm_num)
  have h2 : (2 : ℚ) ^ (10 : ℤ) = 1024 := by norm_num
  rw [h2] at h
  exact h

theorem round_pos (q : ℚ) (hlo : 1 / 9007199254740992 ≤ q) (hhi : q < 1024) :
    ∃ r, F64.round q = F64.fin r ∧ 0 < r ∧ |r - q| ≤ q * (1 / 9007199254740992) := by
  have hq : 0 < q := lt_of_lt_of_le (by norm_num) hlo
  have habs : |q| = q := abs_of_pos hq
  obtain ⟨r, hr, hpos, -, herr, -⟩ := round_normal q (by rw [habs]; exact le_trans tiny_le hlo)
    (by rw [habs]; exact lt_of_lt_of_le hhi huge_ge)
  rw [habs, ulp53] at herr
  exact ⟨r, hr, hpos hq, herr⟩

theorem memUsageExpr_near (t a : ℕ) (ht : 0 < t) (ht2 : t ≤ 2 ^ 44) (hat : a ≤ t) :
    ∃ p : ℚ, memUsageExpr (a : ℤ) (t : ℤ) = F64.fin p ∧ 0 ≤ p ∧ p < 101 ∧
      |p - ((100 * (t - a) : ℕ) : ℚ) / (t : ℚ)| < 1 / (t : ℚ) ∧ (a = t → p = 0) := by
  have hT : (0 : ℚ) < (t : ℚ) := by exact_mod_cast ht
  have hT1 : (1 : ℚ) ≤ (t : ℚ) := by exact_mod_cast ht
  have hT2 : (t : ℚ) ≤ 17592186044416 := by exact_mod_cast ht2
  have hA : (0 : ℚ) ≤ (a : ℚ) := by positivity
  have hAT : (a : ℚ) ≤ (t : ℚ) := by exact_mod_cast hat
  have hinvT : 1 / (17592186044416 : ℚ) ≤ 1 / (t : ℚ) := one_div_le_one_div_of_le hT hT2
  have hinvT1 : 1 / (t : ℚ) ≤ 1 := by
    rw [div_le_one hT]
    exact hT1
  have hx : ((100 * (t - a) : ℕ) : ℚ) / (t : ℚ) = 100 * (1 - (a : ℚ) / t) := by
    rw [Nat.cast_mul, Nat.cast_sub hat]
    field_simp
  have b100 : F64.ofInt 100 = F64.fin 100 := by
    have := ofInt_exact 100 (by norm_num)
    simpa using this
  have b1 : F64.ofInt 1 = F64.fin 1 := by
    have := ofInt_exact 1 (by norm_num)
    simpa using this
  have r1 : F64.round 1 = F64.fin 1 := by
    have := b1
    unfold F64.ofInt at this
    simpa using this
  have r100 : F64.round 100 = F64.fin 100 := by
    have := b100
    unfold F64.ofInt at this
    simpa using this
  have r0 : F64.round 0 = F64.fin 0 := by simp [F64.round]
  have ba : F64.ofInt (a : ℤ) = F64.fin (a : ℚ) := by
    have := ofInt_exact (a : ℤ) (by rw [abs_of_nonneg (by positivity)]; omega)
    simpa using this
  have bt : F64.ofInt (t : ℤ) = F64.fin (t : ℚ) := by
    have := ofInt_exact (t : ℤ) (by rw [abs_of_nonneg (by positivity)]; omega)
    simpa using this
  unfold memUsageExpr
  rw [b100, b1, ba, bt, div_fin_fin, if_neg hT.ne', hx]
  by_cases ha0 : a = 0
  · subst ha0
    refine ⟨100, ?_, by norm_num, by norm_num, ?_, ?_⟩
    · simp [F64.zero, sub_fin_fin, mul_fin_fin, r100, not_lt.mpr hT.le]
    · simp only [Nat.cast_zero, zero_div, sub_zero, mul_one, sub_self, abs_zero]
      positivity
    · intro h
      omega
  by_cases hat' : a = t
  · subst hat'
    refine ⟨0, ?_, le_refl _, by norm_num, ?_, fun _ => rfl⟩
    · have hA0 : (a : ℚ) ≠ 0 := hT.ne'
      rw [if_neg hA0, div_self hA0, r1, sub_fin_fin, if_neg one_ne_zero, sub_self, r0]
      simp [mul_fin_fin, F64.zero]
    · rw [div_self hT.ne', sub_self, mul_zero, sub_self, abs_zero]
      positivity
  have hapos : (1 : ℚ) ≤ (a : ℚ) := by
    have : 1 ≤ a := Nat.one_le_iff_ne_zero.mpr ha0
    exact_mod_cast this
  have halt : (a : ℚ) + 1 ≤ (t : ℚ) := by
    have : a + 1 ≤ t := by omega
    exact_mod_cast this
  have hA0 : (a : ℚ) ≠ 0 := by linarith
  rw [if_neg hA0]
  have hq_lo : 1 / (t : ℚ) ≤ (a : ℚ) / t := div_le_div_of_nonneg_right hapos hT.le
  have hq_hi : (a : ℚ) / t ≤ 1 - 1 / (t : ℚ) := by
    rw [← sub_nonneg]
    have : 1 - 1 / (t : ℚ) - (a : ℚ) / t = ((t : ℚ) - 1 - a) / t := by field_simp
    rw [this]
    apply div_nonneg _ hT.le
    linarith
  have hn53 : (1 : ℚ) / 17592186044416 = 512 * (1 / 9007199254740992) := by norm_num
  obtain ⟨q1, hq1, hq1pos, hq1err⟩ := round_pos ((a : ℚ) / t) (by linarith) (by linarith)
  rw [abs_le] at hq1err
  rw [hq1, sub_fin_fin, if_neg hq1pos.ne']
  obtain ⟨s1, hs1, hs1pos, hs1err⟩ := round_pos (1 - q1) (by linarith) (by linarith)
  rw [abs_le] at hs1err
  rw [hs1, mul_fin_fin, if_neg (by positivity)]
  obtain ⟨p1, hp1, hp1pos, hp1err⟩ := round_pos (100 * s1) (by linarith) (by linarith)
  rw [abs_le] at hp1err
  refine ⟨p1, hp1, hp1pos.le, by linarith, ?_, fun h => absurd h hat'⟩
  rw [abs_lt]
  constructor <;> linarith

theorem truncQ_nonneg (p : ℚ) (hp : 0 ≤ p) : truncQ p = ⌊p⌋ := by
  unfold truncQ
  rw [if_pos hp]

/-- C2 (as amended): when the loop over a readable `/proc/meminfo` ends with
`0 < total ≤ 2 ^ 44` and `0 ≤ available ≤ total`, `getMemoryUsage` returns a nil
error and an integer `r` with `E - 1 ≤ r ≤ E`, where
`E = floor(100 * (total - available) / total)`; `r = E` whenever
`100 * (total - available)` is not a multiple of `total`. -/
theorem getMemoryUsage_percentage (ub : F64 → Int) (data : Str) (available total : Int)
    (hloop : memLoop (splitLines data) (0, 0) = .ok (available, total))
    (ht : 0 < total) (ht2 : total ≤ 2 ^ 44) (ha : 0 ≤ available) (hat : available ≤ total) :
    ∃ r, getMemoryUsage ub (some data) = (r, none) ∧
      (100 * (total - available)) / total - 1 ≤ r ∧ r ≤ (100 * (total - available)) / total ∧
      (¬ total ∣ 100 * (total - available) → r = (100 * (total - available)) / total) := by
  lift total to ℕ using ht.le
  lift available to ℕ using ha
  have ht' : 0 < total := by exact_mod_cast ht
  have ht2' : total ≤ 2 ^ 44 := by exact_mod_cast ht2
  have hat' : available ≤ total := by exact_mod_cast hat
  have hTq : (0 : ℚ) < (total : ℚ) := by exact_mod_cast ht'
  obtain ⟨p, hp, hp0, hp101, hnear, -⟩ := memUsageExpr_near total available ht' ht2' hat'
  have hN : 100 * ((total : ℤ) - (available : ℤ)) = ((100 * (total - available) : ℕ) : ℤ) := by
    rw [Nat.cast_mul, Nat.cast_sub hat']
    rfl
  rw [hN]
  generalize 100 * (total - available) = N at hnear
  have hE : ((N : ℤ)) / (total : ℤ) = ((N / total : ℕ) : ℤ) := by norm_cast
  rw [hE]
  have hfl : ⌊p⌋ < 2 ^ 63 ∧ -(2 : ℤ) ^ 63 ≤ ⌊p⌋ := by
    constructor
    · have : ⌊p⌋ < 101 := Int.floor_lt.mpr (by exact_mod_cast hp101)
      omega
    · have : (0 : ℤ) ≤ ⌊p⌋ := Int.floor_nonneg.mpr hp0
      omega
  have hres : getMemoryUsage ub (some data) = (⌊p⌋, none) := by
    unfold getMemoryUsage
    simp only [hloop]
    have h0 : ¬ ((total : ℤ) = 0) := by omega
    rw [if_neg h0, hp, toInt_fin ub p (by rw [truncQ_nonneg p hp0]; exact ⟨hfl.2, hfl.1⟩),
      truncQ_nonneg p hp0]
  refine ⟨⌊p⌋, hres, ?_⟩
  by_cases hmod : N % total = 0
  · obtain ⟨K, hK⟩ := Nat.dvd_of_mod_eq_zero hmod
    have hdiv : N / total = K := by rw [hK]; exact Nat.mul_div_cancel_left K ht'
    have hxq : (N : ℚ) / (total : ℚ) = (K : ℚ) := by
      rw [hK]
      push_cast
      field_simp
    rw [hxq, abs_lt] at hnear
    have hle1 : 1 / (total : ℚ) ≤ 1 := by
      rw [div_le_one hTq]
      exact_mod_cast ht'
    rw [hdiv]
    refine ⟨?_, ?_, ?_⟩
    · rw [Int.le_floor]
      push_cast
      linarith
    · have : ⌊p⌋ < (K : ℤ) + 1 := by
        rw [Int.floor_lt]
        push_cast
        linarith
      omega
    · intro hnd
      exfalso
      apply hnd
      rw [hK]
      exact ⟨(K : ℤ), by push_cast; ring⟩
  · have hfloor := floor_of_near N total ht' hmod p hnear
    rw [hfloor]
    exact ⟨by omega, le_refl _, fun _ => rfl⟩

theorem getMemoryUsage_percentage_witness :
    getMemoryUsage amd64 (some "MemTotal: 1000 kB\nMemFree: 3 kB\nMemAvailable: 250 kB\n".toList) =
        (75, none) ∧
      ∃ r, getMemoryUsage amd64
          (some "MemTotal: 1000 kB\nMemFree: 3 kB\nMemAvailable: 250 kB\n".toList) = (r, none) ∧
        (100 * (1000 - 250)) / 1000 - 1 ≤ r ∧ r ≤ (100 * (1000 - 250)) / 1000 ∧
        (¬ (1000 : ℤ) ∣ 100 * (1000 - 250) → r = (100 * (1000 - 250)) / 1000) :=
  ⟨by decide!,
    getMemoryUsage_percentage amd64 "MemTotal: 1000 kB\nMemFree: 3 kB\nMemAvailable: 250 kB\n".toList
      250 1000 (by decide) (by decide) (by decide) (by decide) (by decide)⟩

/-- C2, counterexample: with `MemTotal = 5` and `MemAvailable = 4` the exact value
`100 * (1 - 4/5)` is `20`, but the float64 evaluation falls just below it and
`getMemoryUsage` returns `19`. -/
theorem getMemoryUsage_percentage_counterexample :
    getMemoryUsage amd64 (some "MemTotal: 5 kB\nMemAvailable: 4 kB\n".toList) = (19, none) ∧
      (100 * ((5 : ℤ) - 4)) / 5 = 20 := by
  decide!

/-! ## The payload: schema and round trip -/

theorem digitChar_isDigit (d : Nat) (h : d < 10) : IsDigit (digitChar d) := by
  interval_cases d <;> decide

theorem isDigit_cases (c : Char) (h : IsDigit c) :
    c = '0' ∨ c = '1' ∨ c = '2' ∨ c = '3' ∨ c = '4' ∨ c = '5' ∨ c = '6' ∨ c = '7' ∨ c = '8' ∨
      c = '9' := by
  obtain ⟨h1, h2⟩ := h
  have hc := Char.ofNat_toNat c
  generalize c.toNat = n at h1 h2 hc
  subst hc
  interval_cases n <;> decide

theorem plain_of_isDigit (c : Char) (h : IsDigit c) : Plain c := by
  rcases isDigit_cases c h with h | h | h | h | h | h | h | h | h | h <;> subst h <;> decide

theorem natDigitsAux_digits (fuel n : Nat) (acc : Str) (hacc : ∀ c ∈ acc, IsDigit c) :
    ∀ c ∈ natDigitsAux fuel n acc, IsDigit c := by
  induction fuel generalizing n acc with
  | zero => exact hacc
  | succ f ih =>
    simp only [natDigitsAux]
    split
    · rename_i h
      intro c hc
      rcases List.mem_cons.mp hc with hc | hc
      · rw [hc]
        exact digitChar_isDigit n h
      · exact hacc c hc
    · apply ih
      intro c hc
      rcases List.mem_cons.mp hc with hc | hc
      · rw [hc]
        exact digitChar_isDigit _ (Nat.mod_lt n (by norm_num))
      · exact hacc c hc

theorem natDigitsAux_ne_nil (fuel n : Nat) (acc : Str) (hacc : acc ≠ []) :
    natDigitsAux fuel n acc ≠ [] := by
  induction fuel generalizing n acc with
  | zero => exact hacc
  | succ f ih =>
    simp only [natDigitsAux]
    split
    · exact List.cons_ne_nil _ _
    · exact ih _ _ (List.cons_ne_nil _ _)

theorem natDigits_digits (n : Nat) : ∀ c ∈ natDigits n, IsDigit c :=
  natDigitsAux_digits (n + 1) n [] (fun _ h => absurd h (List.not_mem_nil _))

theorem natDigits_ne_nil (n : Nat) : natDigits n ≠ [] := by
  unfold natDigits
  simp only [natDigitsAux]
  split
  · exact List.cons_ne_nil _ _
  · exact natDigitsAux_ne_nil _ _ _ (List.cons_ne_nil _ _)

theorem fmtD_intNumeral (z : Int) : IntNumeral (fmtD z) := by
  refine ⟨natDigits z.natAbs, natDigits_ne_nil _, natDigits_digits _, ?_⟩
  unfold fmtD
  split
  · exact Or.inr rfl
  · exact Or.inl rfl

theorem fmtF2_twoDecimals (q : ℚ) (hq : 0 ≤ q) : TwoDecimals (fmtF2 (F64.fin q)) := by
  refine ⟨natDigits (rne (q.num.natAbs * 100) q.den / 100),
    digitChar (rne (q.num.natAbs * 100) q.den / 10 % 10),
    digitChar (rne (q.num.natAbs * 100) q.den % 10), natDigits_ne_nil _, natDigits_digits _,
    digitChar_isDigit _ (Nat.mod_lt _ (by norm_num)),
    digitChar_isDigit _ (Nat.mod_lt _ (by norm_num)), ?_⟩
  simp only [fmtF2, if_neg (not_lt.mpr hq), List.nil_append]

theorem fmtD_plain (z : Int) : ∀ c ∈ fmtD z, Plain c := by
  intro c hc
  unfold fmtD at hc
  split at hc
  · rcases List.mem_cons.mp hc with h | h
    · rw [h]
      decide
    · exact plain_of_isDigit c (natDigits_digits _ c h)
  · exact plain_of_isDigit c (natDigits_digits _ c hc)

theorem fmtF2_plain (x : F64) : ∀ c ∈ fmtF2 x, Plain c := by
  cases x with
  | nan => decide
  | negZero => decide
  | inf s => cases s <;> decide
  | fin q =>
    intro c hc
    simp only [fmtF2, List.mem_append, List.mem_cons, List.mem_singleton] at hc
    rcases hc with hc | hc | hc | hc | hc
    · split at hc
      · rw [List.mem_singleton.mp hc]
        decide
      · exact absurd hc (List.not_mem_nil _)
    · exact plain_of_isDigit c (natDigits_digits _ c hc)
    · rw [hc]
      decide
    · rw [hc]
      exact plain_of_isDigit _ (digitChar_isDigit _ (Nat.mod_lt _ (by norm_num)))
    · rcases hc with hc | hc
      · rw [hc]
        exact plain_of_isDigit _ (digitChar_isDigit _ (Nat.mod_lt _ (by norm_num)))
      · exact absurd hc (List.not_mem_nil _)

theorem flatMap_escape_plain (s : Str) (h : ∀ c ∈ s, Plain c) : s.flatMap escapeChar = s := by
  induction s with
  | nil => rfl
  | cons c cs ih =>
    rw [List.flatMap_cons, (h c (List.mem_cons_self _ _)).1,
      ih (fun x hx => h x (List.mem_cons_of_mem _ hx))]
    rfl

theorem encodeString_plain (s : Str) (h : ∀ c ∈ s, Plain c) :
    encodeString s = dquote :: (s ++ [dquote]) := by
  unfold encodeString
  rw [flatMap_escape_plain s h]

theorem readStringBody_plain (s : Str) (h : ∀ c ∈ s, Plain c) (acc rest : Str) :
    readStringBody acc (s ++ dquote :: rest) = some (acc.reverse ++ s, rest) := by
  induction s generalizing acc with
  | nil =>
    rw [List.nil_append, readStringBody.eq_def]
    simp
  | cons c cs ih =>
    obtain ⟨-, h1, h2, h3⟩ := h c (List.mem_cons_self _ _)
    rw [List.cons_append, readStringBody.eq_def]
    simp only [if_neg h1, if_neg h2, if_neg h3]
    rw [ih (fun x hx => h x (List.mem_cons_of_mem _ hx))]
    simp

theorem readString_encodeString (s : Str) (h : ∀ c ∈ s, Plain c) (rest : Str) :
    readString (encodeString s ++ rest) = some (s, rest) := by
  rw [encodeString_plain s h]
  simp only [List.cons_append, List.append_assoc, List.singleton_append, readString, if_true]
  rw [readStringBody_plain s h]
  rfl

theorem skipWs_encodeString (s rest : Str) :
    skipWs (encodeString s ++ rest) = encodeString s ++ rest := by
  unfold encodeString
  rw [List.cons_append, skipWs, if_neg (by decide)]

theorem readMembers_more (fuel : Nat) (b : SystemUsage) (key value rest : Str)
    (hk : ∀ c ∈ key, Plain c) (hv : ∀ c ∈ value, Plain c) :
    readMembers (fuel + 1) b (member key value ++ ',' :: rest) =
      readMembers fuel (setField b key value) rest := by
  unfold member
  rw [readMembers, List.append_assoc, skipWs_encodeString, readString_encodeString key hk]
  simp only [List.cons_append]
  rw [skipWs, if_neg (by decide)]
  simp only
  rw [skipWs_encodeString, readString_encodeString value hv]
  simp only
  rw [skipWs, if_neg (by decide)]
  simp only [if_true]

theorem readMembers_last (fuel : Nat) (b : SystemUsage) (key value : Str)
    (hk : ∀ c ∈ key, Plain c) (hv : ∀ c ∈ value, Plain c) :
    readMembers (fuel + 1) b (member key value ++ [Char.ofNat 125]) =
      some (setField b key value) := by
  unfold member
  rw [readMembers, List.append_assoc, skipWs_encodeString, readString_encodeString key hk]
  simp only [List.cons_append]
  rw [skipWs, if_neg (by decide)]
  simp only
  rw [skipWs_encodeString, readString_encodeString value hv]
  simp only
  rw [skipWs, if_neg (by decide)]
  simp only
  rw [if_neg (by decide)]
  simp [skipWs]

theorem marshal_length (b : SystemUsage) : ∃ k, (marshal b).length = k + 5 := by
  refine ⟨(marshal b).length - 5, ?_⟩
  have : 5 ≤ (marshal b).length := by
    simp only [marshal, member, encodeString, List.length_cons, List.length_append]
    omega
  omega

theorem unmarshal_marshal (b : SystemUsage) (h1 : ∀ c ∈ b.CPUUsage, Plain c)
    (h2 : ∀ c ∈ b.MemoryUsage, Plain c) (h3 : ∀ c ∈ b.Download, Plain c)
    (h4 : ∀ c ∈ b.Upload, Plain c) (h5 : ∀ c ∈ b.WifiClients, Plain c) :
    unmarshal (marshal b) = some b := by
  obtain ⟨k, hk⟩ := marshal_length b
  unfold unmarshal
  rw [hk]
  unfold marshal
  rw [skipWs, if_neg (by decide)]
  simp only [if_true]
  have hm : ∀ (key value rest : Str), skipWs (member key value ++ rest) =
      member key value ++ rest := by
    intro key value rest
    unfold member
    rw [List.append_assoc, skipWs_encodeString]
  rw [hm]
  have hne : ∀ (key value rest : Str), ∃ r2, member key value ++ rest = dquote :: r2 := by
    intro key value rest
    exact ⟨_, rfl⟩
  obtain ⟨r2, hr2⟩ := hne "CPUUsage".toList b.CPUUsage (',' ::
    (member "MemoryUsage".toList b.MemoryUsage ++ ',' ::
      (member "Download".toList b.Download ++ ',' ::
        (member "Upload".toList b.Upload ++ ',' ::
          (member "WifiClients".toList b.WifiClients ++ [Char.ofNat 125])))))
  rw [hr2]
  simp only
  rw [if_neg (by intro h; exact absurd h.1 (by decide)), ← hr2]
  rw [readMembers_more _ _ _ _ _ (by decide) h1, readMembers_more _ _ _ _ _ (by decide) h2,
    readMembers_more _ _ _ _ _ (by decide) h3, readMembers_more _ _ _ _ _ (by decide) h4,
    readMembers_last _ _ _ _ (by decide) h5]
  have e1 : lowerAscii "CPUUsage".toList = "cpuusage".toList := by decide
  have e2 : lowerAscii "MemoryUsage".toList = "memoryusage".toList := by decide
  have e3 : lowerAscii "Download".toList = "download".toList := by decide
  have e4 : lowerAscii "Upload".toList = "upload".toList := by decide
  have e5 : lowerAscii "WifiClients".toList = "wificlients".toList := by decide
  simp only [setField, e1, e2, e3, e4, e5, if_true]
  rw [if_neg (by decide), if_neg (by decide), if_neg (by decide), if_neg (by decide),
    if_neg (by decide), if_neg (by decide), if_neg (by decide), if_neg (by decide),
    if_neg (by decide), if_neg (by decide)]

theorem marshal_text (b : SystemUsage) (h1 : ∀ c ∈ b.CPUUsage, Plain c)
    (h2 : ∀ c ∈ b.MemoryUsage, Plain c) (h3 : ∀ c ∈ b.Download, Plain c)
    (h4 : ∀ c ∈ b.Upload, Plain c) (h5 : ∀ c ∈ b.WifiClients, Plain c) :
    marshal b =
      "\x7b\"CPUUsage\":\"".toList ++ (b.CPUUsage ++
        ("\",\"MemoryUsage\":\"".toList ++ (b.MemoryUsage ++
          ("\",\"Download\":\"".toList ++ (b.Download ++
            ("\",\"Upload\":\"".toList ++ (b.Upload ++
              ("\",\"WifiClients\":\"".toList ++ (b.WifiClients ++ "\"\x7d".toList))))))))) := by
  have k1 : encodeString "CPUUsage".toList = "\"CPUUsage\"".toList := by decide
  have k2 : encodeString "MemoryUsage".toList = "\"MemoryUsage\"".toList := by decide
  have k3 : encodeString "Download".toList = "\"Download\"".toList := by decide
  have k4 : encodeString "Upload".toList = "\"Upload\"".toList := by decide
  have k5 : encodeString "WifiClients".toList = "\"WifiClients\"".toList := by decide
  unfold marshal member
  rw [k1, k2, k3, k4, k5, encodeString_plain _ h1, encodeString_plain _ h2,
    encodeString_plain _ h3, encodeString_plain _ h4, encodeString_plain _ h5]
  simp only [List.append_assoc, List.cons_append, List.nil_append, List.singleton_append]
  rfl

/-- C7: for all sampled values (integers `cpu`, `mem`; non-negative finite
`download`, `upload`; the constant wifi count `0`) the payload built in the main
loop is the JSON object with exactly the five members `CPUUsage`, `MemoryUsage`,
`Download`, `Upload`, `WifiClients` in this order, each a JSON string: decimal
integers for the first two and the last, two decimal places for the throughputs;
reading the payload back gives the same five strings. -/
theorem payload_schema_roundtrip (cpu mem : Int) (down up : ℚ) (hd : 0 ≤ down) (hu : 0 ≤ up) :
    marshal (assemble (F64.fin down) (F64.fin up) cpu mem) =
        "\x7b\"CPUUsage\":\"".toList ++ (fmtD cpu ++
          ("\",\"MemoryUsage\":\"".toList ++ (fmtD mem ++
            ("\",\"Download\":\"".toList ++ (fmtF2 (F64.fin down) ++
              ("\",\"Upload\":\"".toList ++ (fmtF2 (F64.fin up) ++
                "\",\"WifiClients\":\"0\"\x7d".toList))))))) ∧
      IntNumeral (fmtD cpu) ∧ IntNumeral (fmtD mem) ∧
      TwoDecimals (fmtF2 (F64.fin down)) ∧ TwoDecimals (fmtF2 (F64.fin up)) ∧
      unmarshal (marshal (assemble (F64.fin down) (F64.fin up) cpu mem)) =
        some ⟨fmtD cpu, fmtD mem, fmtF2 (F64.fin down), fmtF2 (F64.fin up), "0".toList⟩ := by
  have hb : assemble (F64.fin down) (F64.fin up) cpu mem =
      ⟨fmtD cpu, fmtD mem, fmtF2 (F64.fin down), fmtF2 (F64.fin up), "0".toList⟩ := rfl
  have p1 := fmtD_plain cpu
  have p2 := fmtD_plain mem
  have p3 := fmtF2_plain (F64.fin down)
  have p4 := fmtF2_plain (F64.fin up)
  have p5 : ∀ c ∈ "0".toList, Plain c := by decide
  refine ⟨?_, fmtD_intNumeral cpu, fmtD_intNumeral mem, fmtF2_twoDecimals down hd,
    fmtF2_twoDecimals up hu, ?_⟩
  · rw [hb, marshal_text _ p1 p2 p3 p4 p5]
    rfl
  · rw [hb]
    exact unmarshal_marshal _ p1 p2 p3 p4 p5

theorem payload_schema_roundtrip_witness :
    marshal (assemble (F64.fin (157 / 50)) (F64.fin 1) 42 10) =
        "\x7b\"CPUUsage\":\"42\",\"MemoryUsage\":\"10\",\"Download\":\"3.14\",\"Upload\":\"1.00\",\"WifiClients\":\"0\"\x7d".toList ∧
      unmarshal
          "\x7b\"CPUUsage\":\"42\",\"MemoryUsage\":\"10\",\"Download\":\"3.14\",\"Upload\":\"1.00\",\"WifiClients\":\"0\"\x7d".toList =
        some ⟨"42".toList, "10".toList, "3.14".toList, "1.00".toList, "0".toList⟩ := by
  have h := payload_schema_roundtrip 42 10 (157 / 50) 1 (by norm_num) (by norm_num)
  have e1 : fmtD 42 = "42".toList := by decide
  have e2 : fmtD 10 = "10".toList := by decide
  have e3 : fmtF2 (F64.fin (157 / 50)) = "3.14".toList := by decide!
  have e4 : fmtF2 (F64.fin 1) = "1.00".toList := by decide!
  obtain ⟨h1, -, -, -, -, h2⟩ := h
  rw [e1, e2, e3, e4] at h1 h2
  rw [h1] at h2
  exact ⟨h1, h2⟩

/-! ## `getSpeeds`: scaling by powers of two is exact -/

theorem two_zpow_lt (a b : ℤ) (h : a < b) : (2 : ℚ) ^ a < (2 : ℚ) ^ b :=
  zpow_lt_zpow_right₀ (by norm_num) h

theorem two_zpow_le (a b : ℤ) (h : a ≤ b) : (2 : ℚ) ^ a ≤ (2 : ℚ) ^ b :=
  zpow_le_zpow_right₀ (by norm_num) h

theorem round_scaled (r : ℚ) (M : ℕ) (p j : ℤ) (hM : M ≤ 2 ^ 53)
    (hr : |r| = (M : ℚ) * (2 : ℚ) ^ p) (hlo : -1074 ≤ p + j) (hhi : p + j ≤ 900) :
    F64.round (r * (2 : ℚ) ^ j) = F64.fin (r * (2 : ℚ) ^ j) := by
  have pj : (0 : ℚ) < (2 : ℚ) ^ j := by positivity
  have habs : |r * (2 : ℚ) ^ j| = (M : ℚ) * (2 : ℚ) ^ (p + j) := by
    rw [abs_mul, abs_of_pos pj, hr, mul_assoc, ← zpow_add₀ (by norm_num : (2 : ℚ) ≠ 0)]
  have h1024 : (2 : ℚ) ^ (1024 : ℕ) = (2 : ℚ) ^ (1024 : ℤ) := by
    rw [← zpow_natCast]
    rfl
  rcases Nat.lt_or_ge M (2 ^ 53) with hlt | hge
  · apply round_exact _ M (p + j) hlt hlo habs
    rw [habs, h1024]
    have hMq : (M : ℚ) < (2 : ℚ) ^ (53 : ℤ) := by
      have : (M : ℚ) < (2 : ℚ) ^ (53 : ℕ) := by exact_mod_cast hlt
      exact_mod_cast this
    calc (M : ℚ) * (2 : ℚ) ^ (p + j) < (2 : ℚ) ^ (53 : ℤ) * (2 : ℚ) ^ (p + j) :=
          mul_lt_mul_of_pos_right hMq (by positivity)
      _ = (2 : ℚ) ^ (53 + (p + j)) := (zpow_add₀ (by norm_num) _ _).symm
      _ ≤ (2 : ℚ) ^ (1024 : ℤ) := two_zpow_le _ _ (by omega)
  · have hMeq : M = 2 ^ 53 := le_antisymm hM hge
    have habs2 : |r * (2 : ℚ) ^ j| = ((2 ^ 52 : ℕ) : ℚ) * (2 : ℚ) ^ (p + j + 1) := by
      rw [habs, hMeq, zpow_add_one₀ (by norm_num : (2 : ℚ) ≠ 0)]
      push_cast
      ring
    apply round_exact _ (2 ^ 52) (p + j + 1) (by norm_num) (by omega) habs2
    rw [habs2, h1024]
    have h52 : (((2 ^ 52 : ℕ)) : ℚ) = (2 : ℚ) ^ (52 : ℤ) := by norm_cast
    rw [h52, ← zpow_add₀ (by norm_num : (2 : ℚ) ≠ 0)]
    exact two_zpow_lt _ _ (by omega)

theorem toMbps_exact (r : ℚ) (M : ℕ) (p : ℤ) (hr0 : r ≠ 0) (hM : M ≤ 2 ^ 53)
    (hr : |r| = (M : ℚ) * (2 : ℚ) ^ p) (hp : -1000 ≤ p) (hp2 : p ≤ 800) :
    toMbps (F64.fin r) = F64.fin (r * 8 / 1048576) ∧
      F64.div (F64.mul (F64.fin r) (F64.ofInt 8)) (F64.ofInt 1048576) =
        F64.fin (r * 8 / 1048576) := by
  have b8 : F64.ofInt 8 = F64.fin 8 := by
    have := ofInt_exact 8 (by norm_num)
    simpa using this
  have b1024 : F64.ofInt 1024 = F64.fin 1024 := by
    have := ofInt_exact 1024 (by norm_num)
    simpa using this
  have bM : F64.ofInt 1048576 = F64.fin 1048576 := by
    have := ofInt_exact 1048576 (by norm_num)
    simpa using this
  have s10 := round_scaled r M p (-10) hM hr (by omega) (by omega)
  have s20 := round_scaled r M p (-20) hM hr (by omega) (by omega)
  have s17 := round_scaled r M p (-17) hM hr (by omega) (by omega)
  have s3 := round_scaled r M p 3 hM hr (by omega) (by omega)
  have e10 : r * (2 : ℚ) ^ (-10 : ℤ) = r / 1024 := by
    rw [zpow_neg, div_eq_mul_inv]
    norm_num
  have e20 : r * (2 : ℚ) ^ (-20 : ℤ) = r / 1024 / 1024 := by
    rw [zpow_neg, div_div, div_eq_mul_inv]
    norm_num
  have e17 : r * (2 : ℚ) ^ (-17 : ℤ) = r * 8 / 1048576 := by
    rw [zpow_neg]
    norm_num
    ring
  have e3 : r * (2 : ℚ) ^ (3 : ℤ) = r * 8 := by norm_num
  rw [e10] at s10
  rw [e20] at s20
  rw [e17] at s17
  rw [e3] at s3
  have h1 : r / 1024 ≠ 0 := div_ne_zero hr0 (by norm_num)
  have h2 : r / 1024 / 1024 * 8 ≠ 0 := by
    apply mul_ne_zero (div_ne_zero h1 (by norm_num)) (by norm_num)
  have h2' : r / 1024 / 1024 * 8 = r * 8 / 1048576 := by ring
  have h3 : r * 8 ≠ 0 := mul_ne_zero hr0 (by norm_num)
  constructor
  · unfold toMbps
    rw [b1024, b8, div_fin_fin, if_neg (by norm_num), if_neg hr0, s10, div_fin_fin,
      if_neg (by norm_num), if_neg h1, s20, mul_fin_fin, if_neg h2, h2', s17]
  · rw [b8, bM, mul_fin_fin, if_neg h3, s3, div_fin_fin, if_neg (by norm_num), if_neg h3, s17]

theorem toMbps_zero :
    toMbps (F64.fin 0) = F64.fin 0 ∧
      F64.div (F64.mul (F64.fin 0) (F64.ofInt 8)) (F64.ofInt 1048576) = F64.fin 0 := by
  decide!

theorem round_mid (q : ℚ) (hlo : 1 / 1152921504606846976 ≤ |q|)
    (hhi : |q| < 1267650600228229401496703205376) :
    ∃ r, F64.round q = F64.fin r ∧ (0 < q → 0 < r) ∧ (q < 0 → r < 0) ∧
      |r - q| ≤ |q| * (1 / 9007199254740992) ∧
      ∃ (M : ℕ) (p : ℤ), M ≤ 2 ^ 53 ∧ |r| = (M : ℚ) * (2 : ℚ) ^ p ∧ -112 ≤ p ∧ p ≤ 48 := by
  have c60 : (2 : ℚ) ^ (-60 : ℤ) = 1 / 1152921504606846976 := by
    rw [zpow_neg, one_div]
    norm_num
  have c100 : (2 : ℚ) ^ (100 : ℤ) = 1267650600228229401496703205376 := by norm_num
  have h1 : (2 : ℚ) ^ (-1022 : ℤ) ≤ |q| :=
    le_trans (two_zpow_le _ _ (by norm_num)) (le_of_eq_of_le c60 hlo)
  have h2 : |q| < (2 : ℚ) ^ (1023 : ℤ) :=
    lt_of_lt_of_le (lt_of_lt_of_eq hhi c100.symm) (two_zpow_le _ _ (by norm_num))
  obtain ⟨r, hr, hpos, hneg, herr, M, e, -, hM, hrep, hlo', hhi'⟩ := round_normal q h1 h2
  rw [ulp53] at herr
  refine ⟨r, hr, hpos, hneg, herr, M, e - 52, hM, hrep, ?_, ?_⟩
  · have : (2 : ℚ) ^ (-60 : ℤ) < (2 : ℚ) ^ (e + 1) := by
      rw [c60]
      exact lt_of_le_of_lt hlo hhi'
    have := (zpow_lt_zpow_iff_right₀ (by norm_num : (1 : ℚ) < 2)).mp this
    omega
  · have : (2 : ℚ) ^ e < (2 : ℚ) ^ (100 : ℤ) := by
      rw [c100]
      exact lt_of_le_of_lt hlo' hhi
    have := (zpow_lt_zpow_iff_right₀ (by norm_num : (1 : ℚ) < 2)).mp this
    omega

theorem seconds_finite (d : ℤ) (hd : 0 < d) (hd2 : d < 2 ^ 63) :
    ∃ E : ℚ, seconds d = F64.fin E ∧ 1 / 2147483648 ≤ E ∧ E ≤ 34359738368 := by
  have hsec : Int.tdiv d 1000000000 = d / 1000000000 :=
    Int.tdiv_eq_ediv hd.le (by norm_num)
  have hnsec : Int.tmod d 1000000000 = d % 1000000000 :=
    Int.tmod_eq_emod hd.le (by norm_num)
  unfold seconds
  rw [hsec, hnsec]
  have hs0 : 0 ≤ d / 1000000000 := by omega
  have hs1 : d / 1000000000 < 2 ^ 34 := by omega
  have hn0 : 0 ≤ d % 1000000000 := by omega
  have hn1 : d % 1000000000 < 1000000000 := by omega
  have hsum : 0 < d / 1000000000 ∨ 0 < d % 1000000000 := by omega
  generalize d / 1000000000 = s at hs0 hs1 hsum
  generalize d % 1000000000 = n at hn0 hn1 hsum
  have bs : F64.ofInt s = F64.fin (s : ℚ) :=
    ofInt_exact s (by rw [abs_of_nonneg hs0]; omega)
  have bn : F64.ofInt n = F64.fin (n : ℚ) :=
    ofInt_exact n (by rw [abs_of_nonneg hn0]; omega)
  have bg : F64.ofInt 1000000000 = F64.fin 1000000000 := by
    have := ofInt_exact 1000000000 (by norm_num)
    simpa using this
  have hsq0 : (0 : ℚ) ≤ (s : ℚ) := by exact_mod_cast hs0
  have hsq1 : (s : ℚ) ≤ 17179869184 := by
    have : s ≤ 17179869184 := by omega
    exact_mod_cast this
  have hnq0 : (0 : ℚ) ≤ (n : ℚ) := by exact_mod_cast hn0
  have hnq1 : (n : ℚ) ≤ 1000000000 := by
    have : n ≤ 1000000000 := by omega
    exact_mod_cast this
  rw [bs, bn, bg, div_fin_fin, if_neg (by norm_num)]
  by_cases hn : n = 0
  · subst hn
    have hspos : 0 < s := by omega
    have hsq : (1 : ℚ) ≤ (s : ℚ) := by exact_mod_cast hspos
    simp only [Int.cast_zero, if_true]
    have hz : F64.zero (decide ((0 : ℚ) < 0) != decide ((1000000000 : ℚ) < 0)) = F64.fin 0 := by
      decide!
    rw [hz]
    show ∃ E, F64.round ((s : ℚ) + 0) = F64.fin E ∧ _
    rw [add_zero]
    have := bs
    unfold F64.ofInt at this
    rw [this]
    exact ⟨(s : ℚ), rfl, by linarith, by linarith⟩
  · have hnpos : (1 : ℚ) ≤ (n : ℚ) := by
      have : 1 ≤ n := by omega
      exact_mod_cast this
    have hnq : (n : ℚ) ≠ 0 := by linarith
    rw [if_neg hnq]
    have hf_lo : (1 : ℚ) / 1000000000 ≤ (n : ℚ) / 1000000000 :=
      div_le_div_of_nonneg_right hnpos (by norm_num)
    have hf_hi : (n : ℚ) / 1000000000 ≤ 1 := by
      rw [div_le_one (by norm_num)]
      exact hnq1
    obtain ⟨f, hf, hfpos, hferr⟩ := round_pos ((n : ℚ) / 1000000000) (by linarith) (by linarith)
    rw [abs_le] at hferr
    rw [hf]
    show ∃ E, F64.round ((s : ℚ) + f) = F64.fin E ∧ _
    have hqpos : 0 < (s : ℚ) + f := by linarith
    have habs : |(s : ℚ) + f| = (s : ℚ) + f := abs_of_pos hqpos
    obtain ⟨E, hE, hEpos, -, hEerr, -⟩ := round_mid ((s : ℚ) + f)
      (by rw [habs]; linarith) (by rw [habs]; linarith)
    rw [habs, abs_le] at hEerr
    exact ⟨E, hE, by linarith, by linarith⟩

theorem rate_exact (delta : ℤ) (hdelta : |delta| < 2 ^ 63) (E : ℚ) (hE1 : 1 / 2147483648 ≤ E)
    (hE2 : E ≤ 34359738368) :
    ∃ v : ℚ, toMbps (F64.div (F64.ofInt delta) (F64.fin E)) = F64.fin v ∧
      F64.div (F64.mul (F64.div (F64.ofInt delta) (F64.fin E)) (F64.ofInt 8))
        (F64.ofInt 1048576) = F64.fin v ∧
      (|delta| < 2 ^ 53 →
        |v - (delta : ℚ) / E * 8 / 1048576| ≤
          |(delta : ℚ) / E * 8 / 1048576| * (1 / 9007199254740992)) := by
  have hEpos : 0 < E := lt_of_lt_of_le (by norm_num) hE1
  by_cases h0 : delta = 0
  · subst h0
    have hz : F64.ofInt 0 = F64.fin 0 := by simp [F64.ofInt, F64.round]
    have hd : F64.div (F64.fin 0) (F64.fin E) = F64.fin 0 := by
      rw [div_fin_fin, if_neg hEpos.ne', if_pos rfl]
      simp [F64.zero, not_lt.mpr hEpos.le]
    rw [hz, hd]
    exact ⟨0, toMbps_zero.1, toMbps_zero.2, fun _ => by simp⟩
  · have hI : InI64 delta := by
      rw [abs_lt] at hdelta
      exact ⟨by omega, hdelta.2⟩
    obtain ⟨df, hdf, hdfpos, hdfneg, hdferr⟩ := ofInt_finite delta hI h0
    rw [ulp53] at hdferr
    have hdabs1 : (1 : ℚ) ≤ |(delta : ℚ)| := by
      rw [← Int.cast_abs]
      exact_mod_cast Int.one_le_abs h0
    have hdabs2 : |(delta : ℚ)| ≤ 9223372036854775808 := by
      rw [← Int.cast_abs]
      have : |delta| ≤ 9223372036854775808 := by omega
      exact_mod_cast this
    have hdf0 : df ≠ 0 := by
      rcases lt_or_gt_of_ne h0 with h | h
      · exact (hdfneg (by exact_mod_cast h)).ne
      · exact (hdfpos (by exact_mod_cast h)).ne'
    have htri := abs_abs_sub_abs_le df (delta : ℚ)
    rw [abs_le] at htri
    have hdfabs1 : 1 / 2 ≤ |df| := by linarith
    have hdfabs2 : |df| ≤ 18446744073709551616 := by linarith
    have hqabs : |df / E| = |df| / E := by rw [abs_div, abs_of_pos hEpos]
    have hq1 : 1 / 1152921504606846976 ≤ |df / E| := by
      rw [hqabs, le_div_iff₀ hEpos]
      linarith
    have hq2 : |df / E| < 1267650600228229401496703205376 := by
      rw [hqabs, div_lt_iff₀ hEpos]
      nlinarith
    obtain ⟨r, hr, hrpos, hrneg, hrerr, M, p, hM, hrep, hp1, hp2⟩ := round_mid (df / E) hq1 hq2
    have hq0 : df / E ≠ 0 := div_ne_zero hdf0 hEpos.ne'
    have hr0 : r ≠ 0 := by
      rcases lt_or_gt_of_ne hq0 with h | h
      · exact (hrneg h).ne
      · exact (hrpos h).ne'
    have hdiv : F64.div (F64.ofInt delta) (F64.fin E) = F64.fin r := by
      rw [hdf, div_fin_fin, if_neg hEpos.ne', if_neg hdf0, hr]
    obtain ⟨t1, t2⟩ := toMbps_exact r M p hr0 hM hrep (by omega) (by omega)
    rw [hdiv]
    refine ⟨r * 8 / 1048576, t1, t2, ?_⟩
    intro hsmall
    have hex := ofInt_exact delta hsmall
    rw [hdf] at hex
    injection hex with hex
    rw [hex] at hrerr
    have e1 : r * 8 / 1048576 - (delta : ℚ) / E * 8 / 1048576 =
        (r - (delta : ℚ) / E) * (8 / 1048576) := by ring
    have e2 : (delta : ℚ) / E * 8 / 1048576 = (delta : ℚ) / E * (8 / 1048576) := by ring
    rw [e1, e2, abs_mul, abs_mul, abs_of_pos (by norm_num : (0 : ℚ) < 8 / 1048576)]
    calc |r - (delta : ℚ) / E| * (8 / 1048576)
        ≤ |(delta : ℚ) / E| * (1 / 9007199254740992) * (8 / 1048576) :=
          mul_le_mul_of_nonneg_right hrerr (by norm_num)
      _ = |(delta : ℚ) / E| * (8 / 1048576) * (1 / 9007199254740992) := by ring

theorem getInterfaceBytes_range (file : Option Str) (v : Int)
    (h : getInterfaceBytes file = .ok v) : InI64 v := by
  unfold getInterfaceBytes at h
  cases file with
  | none => exact Except.noConfusion h
  | some data =>
    simp only at h
    split at h
    · exact Except.noConfusion h
    · rename_i b hb
      injection h with h
      rw [← h]
      exact parseInt_range _ _ hb

/-- C3: when the four counter reads succeed with non-negative byte counts and
the measured elapsed time is positive, `getSpeeds` returns a nil error, and each
rate is the float64 value of `(end - start) / e * 8 / 1048576`, where `e` is the
elapsed time in seconds: the division by `e` is the float64 division and the
conversion to megabits is exact. For byte deltas below `2 ^ 53` the result is
within a relative error of `2 ^ (-53)` of the real quotient. -/
theorem getSpeeds_rates (rx0 tx0 rx1 tx1 : Option Str) (elapsed : Int)
    (startRx startTx endRx endTx : Int)
    (h0 : getInterfaceBytes rx0 = .ok startRx) (h1 : getInterfaceBytes tx0 = .ok startTx)
    (h2 : getInterfaceBytes rx1 = .ok endRx) (h3 : getInterfaceBytes tx1 = .ok endTx)
    (n0 : 0 ≤ startRx) (n1 : 0 ≤ startTx) (n2 : 0 ≤ endRx) (n3 : 0 ≤ endTx)
    (he : 0 < elapsed) (he2 : elapsed < 2 ^ 63) :
    ∃ e down up : ℚ, seconds elapsed = F64.fin e ∧ 0 < e ∧
      getSpeeds rx0 tx0 rx1 tx1 elapsed = (F64.fin down, F64.fin up, none) ∧
      F64.fin down = F64.div (F64.mul (F64.div (F64.ofInt (endRx - startRx)) (F64.fin e))
        (F64.ofInt 8)) (F64.ofInt 1048576) ∧
      F64.fin up = F64.div (F64.mul (F64.div (F64.ofInt (endTx - startTx)) (F64.fin e))
        (F64.ofInt 8)) (F64.ofInt 1048576) ∧
      (|endRx - startRx| < 2 ^ 53 →
        |down - ((endRx - startRx : ℤ) : ℚ) / e * 8 / 1048576| ≤
          |((endRx - startRx : ℤ) : ℚ) / e * 8 / 1048576| * (1 / 9007199254740992)) ∧
      (|endTx - startTx| < 2 ^ 53 →
        |up - ((endTx - startTx : ℤ) : ℚ) / e * 8 / 1048576| ≤
          |((endTx - startTx : ℤ) : ℚ) / e * 8 / 1048576| * (1 / 9007199254740992)) := by
  have r0 := getInterfaceBytes_range rx0 startRx h0
  have r1 := getInterfaceBytes_range tx0 startTx h1
  have r2 := getInterfaceBytes_range rx1 endRx h2
  have r3 := getInterfaceBytes_range tx1 endTx h3
  unfold InI64 at r0 r1 r2 r3
  have hrx : |endRx - startRx| < 2 ^ 63 := by rw [abs_lt]; constructor <;> omega
  have htx : |endTx - startTx| < 2 ^ 63 := by rw [abs_lt]; constructor <;> omega
  have wrx : wrap64 (endRx - startRx) = endRx - startRx :=
    wrap64_id _ ⟨by omega, by omega⟩
  have wtx : wrap64 (endTx - startTx) = endTx - startTx :=
    wrap64_id _ ⟨by omega, by omega⟩
  obtain ⟨E, hE, hE1, hE2⟩ := seconds_finite elapsed he he2
  obtain ⟨d, hd1, hd2, hd3⟩ := rate_exact (endRx - startRx) hrx E hE1 hE2
  obtain ⟨u, hu1, hu2, hu3⟩ := rate_exact (endTx - startTx) htx E hE1 hE2
  refine ⟨E, d, u, hE, lt_of_lt_of_le (by norm_num) hE1, ?_, hd2.symm, hu2.symm, hd3, hu3⟩
  rw [getSpeeds_all_read rx0 tx0 rx1 tx1 elapsed startRx startTx endRx endTx h0 h1 h2 h3,
    wrx, wtx, hE, hd1, hu1]

theorem getSpeeds_rates_witness :
    getSpeeds (some "1048576\n".toList) (some "500\n".toList) (some "2097152\n".toList)
        (some "500\n".toList) 1000000000 = (F64.fin 8, F64.fin 0, none) ∧
      fmtF2 (F64.fin 8) = "8.00".toList ∧
      ∃ e down up : ℚ, seconds 1000000000 = F64.fin e ∧ 0 < e ∧
        getSpeeds (some "1048576\n".toList) (some "500\n".toList) (some "2097152\n".toList)
          (some "500\n".toList) 1000000000 = (F64.fin down, F64.fin up, none) ∧
        F64.fin down = F64.div (F64.mul (F64.div (F64.ofInt (2097152 - 1048576)) (F64.fin e))
          (F64.ofInt 8)) (F64.ofInt 1048576) ∧
        F64.fin up = F64.div (F64.mul (F64.div (F64.ofInt (500 - 500)) (F64.fin e))
          (F64.ofInt 8)) (F64.ofInt 1048576) ∧
        (|(2097152 : ℤ) - 1048576| < 2 ^ 53 →
          |down - ((2097152 - 1048576 : ℤ) : ℚ) / e * 8 / 1048576| ≤
            |((2097152 - 1048576 : ℤ) : ℚ) / e * 8 / 1048576| * (1 / 9007199254740992)) ∧
        (|(500 : ℤ) - 500| < 2 ^ 53 →
          |up - ((500 - 500 : ℤ) : ℚ) / e * 8 / 1048576| ≤
            |((500 - 500 : ℤ) : ℚ) / e * 8 / 1048576| * (1 / 9007199254740992)) :=
  ⟨by decide!, by decide!,
    getSpeeds_rates (some "1048576\n".toList) (some "500\n".toList) (some "2097152\n".toList)
      (some "500\n".toList) 1000000000 1048576 500 2097152 500 (by decide) (by decide)
      (by decide) (by decide) (by decide) (by decide) (by decide) (by decide) (by decide)
      (by decide)⟩

/-! ## Reference values of the float64 model -/

/-- The model reproduces well-known binary64 results: `1/3`, `0.1 + 0.2`
(which is `0.30000000000000004`), the rounding of `2 ^ 53 + 1` to even, the
overflow of `2 ^ 1000 * 2 ^ 1000`, gradual underflow, and the signed results of
divisions by zero. -/
theorem F64_reference_values :
    F64.div (F64.ofInt 1) (F64.ofInt 3) = F64.fin (6004799503160661 / 18014398509481984) ∧
      F64.add (F64.div (F64.ofInt 1) (F64.ofInt 10)) (F64.div (F64.ofInt 2) (F64.ofInt 10)) =
        F64.fin (1351079888211149 / 4503599627370496) ∧
      F64.ofInt (2 ^ 53 + 1) = F64.fin (2 ^ 53) ∧
      F64.ofInt (2 ^ 53 + 3) = F64.fin (2 ^ 53 + 4) ∧
      F64.mul (F64.fin (2 ^ (1000 : ℕ))) (F64.fin (2 ^ (1000 : ℕ))) = F64.inf false ∧
      F64.div (F64.fin (3 / 2 ^ (1074 : ℕ))) (F64.ofInt 2) = F64.fin (2 / 2 ^ (1074 : ℕ)) ∧
      F64.div (F64.fin (1 / 2 ^ (1074 : ℕ))) (F64.ofInt 2) = F64.fin 0 ∧
      F64.div (F64.ofInt (-1)) (F64.ofInt 0) = F64.inf true ∧
      F64.div (F64.ofInt 0) (F64.ofInt 0) = F64.nan := by
  decide!

theorem processCpuLine_short_panics (ub : F64 → Int) (st : CpuState) (fs : List Str)
    (total : Int) (hsum : sumFields 0 fs = .ok total) (hlen : fs.length < 4) :
    processCpuLine ub st ("cpu".toList :: fs) = .panicked := by
  unfold processCpuLine
  simp only [List.tail_cons, hsum]
  have : ("cpu".toList :: fs).get? 4 = none := by
    rw [List.get?_eq_none]
    simp only [List.length_cons]
    omega
  rw [this]

/-- C8: the claim fails on the code. In an iteration whose `/proc/stat` content
is `cpu 1 2 3`, whatever the other inputs and whatever the other two samplers
return, `calculateCPUUsage` panics on `fields[4]`, so no record is assembled and
nothing is handed to `publish`: the failure of this sampler does not degrade to
the zero default. -/
theorem cycle_short_cpu_line_panics (ub : F64 → Int) (st : CpuState)
    (rx0 tx0 rx1 tx1 : Option Str) (elapsed : Int) (meminfo : Option Str) :
    cycle ub st ⟨rx0, tx0, rx1, tx1, elapsed, some "cpu 1 2 3\n".toList, meminfo⟩ = .panicked ∧
      ¬ ∃ (payload : Str) (st1 : CpuState),
        cycle ub st ⟨rx0, tx0, rx1, tx1, elapsed, some "cpu 1 2 3\n".toList, meminfo⟩ =
          .published payload st1 := by
  have hcpu : calculateCPUUsage ub st (some "cpu 1 2 3\n".toList) = .panicked := rfl
  have h : cycle ub st ⟨rx0, tx0, rx1, tx1, elapsed, some "cpu 1 2 3\n".toList, meminfo⟩ =
      .panicked := by
    unfold cycle
    simp only [hcpu]
  refine ⟨h, ?_⟩
  rintro ⟨payload, st1, hp⟩
  rw [h] at hp
  exact CycleOutcome.noConfusion hp

end Mqtt
